import Mathlib

/-!
# jMetalCpp: non-uniform mutation and the shifted rotated Ackley benchmark

A shallow embedding of `src/operators/mutation/NonUniformMutation.cpp`, and of the
evaluator declared in `JMetalInc/F08ShiftedRotatedAckleyGlobalOptBound.h`.

* `double` values are elements of a linear ordered field `α` (the theorems take `α := ℝ`),
  `int` values are integers. This embedding is for arguments at which every intermediate
  value of the code is a finite real.
* The namespace `Ieee` embeds the same functions on `Double α`, which adds NaN and the two
  infinities: there a division by zero and a domain error of `pow` give what the code
  computes. The two embeddings agree where the base of the decay exponent is not negative
  (`Ieee.ieee_doMutation_toDouble`). Rounding is represented in neither.
* `PseudoRandom::randDouble()` reads a stream of draws `r : ℕ → α` at a position `k` and
  advances the position by one; every function that draws returns the new position.
* The C library function `pow` is not part of the repository; it is the parameter `pow` of
  every definition that reaches `delta`.  Theorems that need its values take
  `pow := fun a b => a ^ b`, the real power function.
-/

namespace JMetal

/-- Modelled from the spec: the solution container (`Solution`, `XReal`) is outside the
given sources; a decision variable is what `getValue(var)`, `getLowerBound(var)` and
`getUpperBound(var)` return for one index. -/
structure Variable (α : Type) where
  value : α
  lowerBound : α
  upperBound : α

/-- Modelled from the spec: a decision vector is the ordered sequence of its variables;
`getNumberOfVariables()` is its length. -/
abbrev Solution (α : Type) := List (Variable α)

/-- Modelled from the spec: `setValue(var, t)` replaces the value of variable `var` and
leaves its bounds. -/
def Variable.setValue {α : Type} (v : Variable α) (t : α) : Variable α :=
  { v with value := t }

/-- Modelled from the spec: the ParameterBag of the operator framework (`Operator::parameters_`,
read through `Operator::getParameter`, both outside the given sources). It maps the recognised
keys to typed values, `probability` and `perturbation` to floats, `maxIterations` and
`currentIteration` to integers; `none` is an absent key (`nullptr`). -/
structure ParameterBag (α : Type) where
  probability : Option α
  perturbation : Option α
  maxIterations : Option ℤ
  currentIteration : Option ℤ

/-- The fields of a `NonUniformMutation` object. -/
structure NonUniformMutation (α : Type) where
  parameters_ : ParameterBag α
  mutationProbability_ : α
  perturbation_ : α
  maxIterations_ : ℤ
  currentIteration_ : ℤ

namespace PseudoRandom

/-- Modelled from the spec: the random source (`PseudoRandom::randDouble`, outside the
given sources) returns the next uniform draw; here the draw at position `k` of the stream,
together with the next position. -/
def randDouble {α : Type} (r : ℕ → α) (k : ℕ) : α × ℕ :=
  (r k, k + 1)

end PseudoRandom

namespace NonUniformMutation

variable {α : Type} [LinearOrderedField α]

/-- `NonUniformMutation::delta(y, bMutationParameter)`. The quotient `it / (double) maxIt`
is a division of reals: the integer `maxIt` is converted first. For `maxIt = 0`, and for a
negative base with a non-integer exponent, the code leaves the finite reals; those arguments
are treated by `Ieee.delta`. -/
def delta (pow : α → α → α) (op : NonUniformMutation α) (y bMutationParameter : α)
    (r : ℕ → α) (k : ℕ) : α × ℕ :=
  let d := PseudoRandom.randDouble r k
  let rand := d.1
  let it := op.currentIteration_
  let maxIt := op.maxIterations_
  (y * (1 - pow rand (pow (1 - (it : α) / (maxIt : α)) bMutationParameter)), d.2)

/-- The body of the `for` loop of `doMutation` for the variable at index `var`; it reads
and writes that variable only. -/
def mutateVariable (pow : α → α → α) (op : NonUniformMutation α) (probability : α)
    (r : ℕ → α) (v : Variable α) (k : ℕ) : Variable α × ℕ :=
  let minMaxRange := (v.upperBound - v.lowerBound) / 2
  let coin := PseudoRandom.randDouble r k
  if coin.1 < probability then
    let dir := PseudoRandom.randDouble r coin.2
    let rand := dir.1
    let d :=
      if rand ≤ 1 / 2 then
        delta pow op (v.upperBound - v.value) op.perturbation_ r dir.2
      else
        delta pow op (v.lowerBound - v.value) op.perturbation_ r dir.2
    let tmp := d.1 + v.value
    if tmp < v.lowerBound then
      if 0 < op.perturbation_ ∧ op.perturbation_ < 1 then
        let p := PseudoRandom.randDouble r d.2
        let prand := p.1 * op.perturbation_
        (v.setValue (v.lowerBound + minMaxRange * prand), p.2)
      else
        (v.setValue (v.lowerBound + minMaxRange), d.2)
    else if tmp > v.upperBound then
      if 0 < op.perturbation_ ∧ op.perturbation_ < 1 then
        let p := PseudoRandom.randDouble r d.2
        let prand := p.1 * op.perturbation_
        (v.setValue (v.upperBound - minMaxRange * prand), p.2)
      else
        (v.setValue tmp, d.2)
    else
      (v.setValue tmp, d.2)
  else
    (v, coin.2)

/-- The `for (int var=0; var < solution->getNumberOfVariables(); var++)` loop of
`doMutation`, entered at index `var`. -/
def doMutationLoop (pow : α → α → α) (op : NonUniformMutation α) (probability : α)
    (r : ℕ → α) (var : ℕ) (x : Solution α) (k : ℕ) : Solution α × ℕ :=
  if h : var < x.length then
    let s := mutateVariable pow op probability r x[var] k
    doMutationLoop pow op probability r (var + 1) (x.set var s.1) s.2
  else
    (x, k)
termination_by x.length - var
decreasing_by
  simp only [List.length_set]
  omega

/-- `NonUniformMutation::doMutation(probability, solution)`: the mutated solution and the
position of the random source after the call. -/
def doMutation (pow : α → α → α) (op : NonUniformMutation α) (probability : α)
    (solution : Solution α) (r : ℕ → α) (k : ℕ) : Solution α × ℕ :=
  doMutationLoop pow op probability r 0 solution k

/-- `NonUniformMutation::execute(object)`: the operator after the refresh of
`currentIteration_`, the mutated solution and the position of the random source. -/
def execute (pow : α → α → α) (op : NonUniformMutation α) (solution : Solution α)
    (r : ℕ → α) (k : ℕ) : NonUniformMutation α × Solution α × ℕ :=
  let op1 :=
    match op.parameters_.currentIteration with
    | some it => { op with currentIteration_ := it }
    | none => op
  let s := doMutation pow op1 op1.mutationProbability_ solution r k
  (op1, s.1, s.2)

/-- The variables of a list mutated one after the other, each starting at the position of
the random source where the one before stopped. -/
def mutateVars (pow : α → α → α) (op : NonUniformMutation α) (probability : α)
    (r : ℕ → α) : List (Variable α) → ℕ → List (Variable α) × ℕ
  | [], k => ([], k)
  | v :: vs, k =>
    ((mutateVariable pow op probability r v k).1 ::
        (mutateVars pow op probability r vs (mutateVariable pow op probability r v k).2).1,
      (mutateVars pow op probability r vs (mutateVariable pow op probability r v k).2).2)

/-- The position of the random source when the loop of `doMutation` reaches index `i`. -/
def drawsBefore (pow : α → α → α) (op : NonUniformMutation α) (probability : α)
    (r : ℕ → α) (x : Solution α) (k i : ℕ) : ℕ :=
  (mutateVars pow op probability r (x.take i) k).2

/-- The candidate of the loop body: the value of `tmp` after `tmp += x->getValue(var)`,
before it is compared with the bounds. The coin is the draw at position `k`, the direction
the draw at `k + 1`, and `delta` draws at `k + 2`. -/
def candidate (pow : α → α → α) (op : NonUniformMutation α) (r : ℕ → α) (v : Variable α)
    (k : ℕ) : α :=
  (if r (k + 1) ≤ 1 / 2 then
      delta pow op (v.upperBound - v.value) op.perturbation_ r (k + 2)
    else
      delta pow op (v.lowerBound - v.value) op.perturbation_ r (k + 2)).1 + v.value

/-- A sample operator: shape parameter 1/2, generation 5 of 10, nothing in the bag. -/
def sampleOperator (α : Type) [LinearOrderedField α] : NonUniformMutation α where
  parameters_ := ⟨none, none, none, none⟩
  mutationProbability_ := 1
  perturbation_ := 1 / 2
  maxIterations_ := 10
  currentIteration_ := 5

/-- A sample solution: one variable with value 5 and bounds [0, 10]. -/
def sampleSolution (α : Type) [LinearOrderedField α] : Solution α :=
  [⟨5, 0, 10⟩]

/-- A sample random source: every draw is 1/4. -/
def sampleDraws (α : Type) [LinearOrderedField α] : ℕ → α :=
  fun _ => 1 / 4

/-- An operator at generation 0 of 1 with mutation probability 1 and a chosen shape
parameter; the decay exponent is 1 there. -/
def firstGenerationOperator (α : Type) [LinearOrderedField α] (perturbation : α) :
    NonUniformMutation α where
  parameters_ := ⟨none, none, none, none⟩
  mutationProbability_ := 1
  perturbation_ := perturbation
  maxIterations_ := 1
  currentIteration_ := 0

/-- A solution whose only variable starts above its upper bound: value 12, bounds [0, 10]. -/
def outsideSolution (α : Type) [LinearOrderedField α] : Solution α :=
  [⟨12, 0, 10⟩]

/-- A solution whose only variable starts below its lower bound: value -2, bounds [0, 10]. -/
def belowSolution (α : Type) [LinearOrderedField α] : Solution α :=
  [⟨-2, 0, 10⟩]

/-- A sample random source whose second draw, the direction of the first variable, is 3/4
and whose other draws are 1/4. -/
def downwardDraws (α : Type) [LinearOrderedField α] : ℕ → α :=
  fun n => if n = 1 then 3 / 4 else 1 / 4

/-- An operator with maxIterations 0, mutation probability 1 and shape parameter 1/2, whose
bag holds currentIteration 1. -/
def zeroIterationsOperator (α : Type) [LinearOrderedField α] : NonUniformMutation α where
  parameters_ := ⟨none, none, none, some 1⟩
  mutationProbability_ := 1
  perturbation_ := 1 / 2
  maxIterations_ := 0
  currentIteration_ := 0

/-- An operator at its last generation, 10 of 10, with shape parameter 1/2 and mutation
probability 1. -/
def lastGenerationOperator (α : Type) [LinearOrderedField α] : NonUniformMutation α where
  parameters_ := ⟨none, none, none, none⟩
  mutationProbability_ := 1
  perturbation_ := 1 / 2
  maxIterations_ := 10
  currentIteration_ := 10

/-- An operator with maxIterations 0 and currentIteration 0, mutation probability 1, shape
parameter 1/2 and nothing in the bag. -/
def zeroOverZeroOperator (α : Type) [LinearOrderedField α] : NonUniformMutation α where
  parameters_ := ⟨none, none, none, none⟩
  mutationProbability_ := 1
  perturbation_ := 1 / 2
  maxIterations_ := 0
  currentIteration_ := 0

/-- An operator past its last generation: currentIteration 2 of maxIterations 1, shape
parameter 1/2, mutation probability 1. -/
def overrunOperator (α : Type) [LinearOrderedField α] : NonUniformMutation α where
  parameters_ := ⟨none, none, none, none⟩
  mutationProbability_ := 1
  perturbation_ := 1 / 2
  maxIterations_ := 1
  currentIteration_ := 2

/-- An operator before its first generation: currentIteration -1 of maxIterations 2, shape
parameter 1/2, mutation probability 1. -/
def underrunOperator (α : Type) [LinearOrderedField α] : NonUniformMutation α where
  parameters_ := ⟨none, none, none, none⟩
  mutationProbability_ := 1
  perturbation_ := 1 / 2
  maxIterations_ := 2
  currentIteration_ := -1

end NonUniformMutation

/-- Modelled from the spec: the real functions the Ackley kernel uses (`exp`, `sqrt`, `cos`
of the C library and the constant π), which are not part of the repository. -/
structure KernelFunctions (α : Type) where
  exp : α → α
  sqrt : α → α
  cos : α → α
  pi : α

/-- Modelled from the spec: the failure of `evaluate` on a vector of the wrong length. -/
inductive EvaluationError where
  | DimensionMismatch
  deriving DecidableEq

/-- Modelled from the spec: the state of the benchmark evaluator after construction, its
dimension, bias, shift vector `m_o` and rotation matrix `m_matrix` (a list of rows). Only
the class declaration is among the given sources; constructors and the body of `f` are not. -/
structure F08ShiftedRotatedAckleyGlobalOptBound (α : Type) where
  dimension : ℕ
  bias : α
  m_o : List α
  m_matrix : List (List α)

namespace F08ShiftedRotatedAckleyGlobalOptBound

variable {α : Type} [LinearOrderedField α]

/-- Modelled from the spec: step 1 of `evaluate`, `shiftedInput[i] = x[i] - shiftVector[i]`. -/
def shift (o x : List α) : List α :=
  List.zipWith (fun a b => a - b) x o

/-- Modelled from the spec: step 2 of `evaluate`, the matrix-vector product
`RotationMatrix · shiftedInput`, one entry for each row. -/
def rotate (m : List (List α)) (z : List α) : List α :=
  m.map (fun row => (List.zipWith (fun a b => a * b) row z).sum)

/-- Modelled from the spec: step 3 of `evaluate`, the Ackley kernel
`-20 exp(-0.2 sqrt((1/D) Σ z²)) - exp((1/D) Σ cos(2π z)) + 20 + e` with `e = exp 1`. -/
def ackley (F : KernelFunctions α) (d : ℕ) (z : List α) : α :=
  -20 * F.exp (-(1 / 5) * F.sqrt (1 / (d : α) * (z.map (fun t => t * t)).sum))
    - F.exp (1 / (d : α) * (z.map (fun t => F.cos (2 * F.pi * t))).sum) + 20 + F.exp 1

/-- Modelled from the spec: `evaluate(x)`, the member `f` of the class, whose body is not
among the given sources: precondition on the length, shift, rotate, kernel, bias. -/
def f (F : KernelFunctions α) (self : F08ShiftedRotatedAckleyGlobalOptBound α) (x : List α) :
    Except EvaluationError α :=
  if x.length = self.dimension then
    let shiftedInput := shift self.m_o x
    let rotatedInput := rotate self.m_matrix shiftedInput
    Except.ok (ackley F self.dimension rotatedInput + self.bias)
  else
    Except.error EvaluationError.DimensionMismatch

end F08ShiftedRotatedAckleyGlobalOptBound

/-- A `double` with its special values: NaN, the two infinities, and the finite values,
taken as elements of the field. Rounding, overflow of a finite operation to an infinity and
the sign of zero are not represented; every zero is the positive zero. -/
inductive Double (α : Type) where
  | nan : Double α
  | negInf : Double α
  | fin : α → Double α
  | posInf : Double α

namespace Double

variable {α : Type} [LinearOrderedField α]

/-- Negation of a `double`. -/
def neg : Double α → Double α
  | nan => nan
  | negInf => posInf
  | fin a => fin (-a)
  | posInf => negInf

/-- The sum `a + b` of doubles: NaN propagates and the sum of opposite infinities is NaN. -/
def add : Double α → Double α → Double α
  | nan, _ => nan
  | _, nan => nan
  | posInf, negInf => nan
  | negInf, posInf => nan
  | posInf, _ => posInf
  | _, posInf => posInf
  | negInf, _ => negInf
  | _, negInf => negInf
  | fin a, fin b => fin (a + b)

/-- The difference `a - b` of doubles. -/
def sub (a b : Double α) : Double α :=
  add a (neg b)

/-- The product `a * b` of doubles: NaN propagates and zero times an infinity is NaN. -/
def mul : Double α → Double α → Double α
  | nan, _ => nan
  | _, nan => nan
  | fin a, fin b => fin (a * b)
  | fin a, posInf => if 0 < a then posInf else if a < 0 then negInf else nan
  | fin a, negInf => if 0 < a then negInf else if a < 0 then posInf else nan
  | posInf, fin b => if 0 < b then posInf else if b < 0 then negInf else nan
  | negInf, fin b => if 0 < b then negInf else if b < 0 then posInf else nan
  | posInf, posInf => posInf
  | negInf, negInf => posInf
  | posInf, negInf => negInf
  | negInf, posInf => negInf

/-- The quotient `a / b` of doubles: a nonzero value over zero is an infinity with the sign
of the dividend, zero over zero and an infinity over an infinity are NaN. -/
def div : Double α → Double α → Double α
  | nan, _ => nan
  | _, nan => nan
  | fin a, fin b =>
    if b = 0 then (if 0 < a then posInf else if a < 0 then negInf else nan) else fin (a / b)
  | fin _, posInf => fin 0
  | fin _, negInf => fin 0
  | posInf, fin b => if 0 ≤ b then posInf else negInf
  | negInf, fin b => if 0 ≤ b then negInf else posInf
  | posInf, posInf => nan
  | posInf, negInf => nan
  | negInf, posInf => nan
  | negInf, negInf => nan

/-- The comparison `a < b` of doubles; it is false when an operand is NaN. -/
def lt : Double α → Double α → Bool
  | fin a, fin b => decide (a < b)
  | negInf, fin _ => true
  | negInf, posInf => true
  | fin _, posInf => true
  | _, _ => false

/-- The comparison `a <= b` of doubles; it is false when an operand is NaN. -/
def le : Double α → Double α → Bool
  | fin a, fin b => decide (a ≤ b)
  | negInf, negInf => true
  | negInf, fin _ => true
  | negInf, posInf => true
  | fin _, posInf => true
  | posInf, posInf => true
  | _, _ => false

end Double

/-- The variable with its three doubles finite. -/
def Variable.toDouble {α : Type} (v : Variable α) : Variable (Double α) :=
  ⟨Double.fin v.value, Double.fin v.lowerBound, Double.fin v.upperBound⟩

/-- The bag with its floats finite. -/
def ParameterBag.toDouble {α : Type} (b : ParameterBag α) : ParameterBag (Double α) :=
  ⟨b.probability.map Double.fin, b.perturbation.map Double.fin, b.maxIterations,
    b.currentIteration⟩

/-- The operator with its floats finite. -/
def NonUniformMutation.toDouble {α : Type} (op : NonUniformMutation α) :
    NonUniformMutation (Double α) :=
  ⟨op.parameters_.toDouble, Double.fin op.mutationProbability_, Double.fin op.perturbation_,
    op.maxIterations_, op.currentIteration_⟩

/-!
The operator on doubles with special values: the same source functions once more, on
`Double α`. Here a division by zero yields an infinity or NaN and `pow` follows the special
cases of the C library, so this embedding shows what the code stores when the decay leaves
the reals. Where the base of the decay exponent is not negative it agrees with the embedding
over the field (`Ieee.ieee_doMutation_toDouble`).
-/

namespace Ieee

variable {α : Type} [LinearOrderedField α] [FloorRing α]

/-- The double `y` is an integer. -/
def isInteger (y : α) : Bool :=
  decide (((⌊y⌋ : ℤ) : α) = y)

/-- The double `y` is an odd integer. -/
def isOddInteger (y : α) : Bool :=
  decide (((⌊y⌋ : ℤ) : α) = y ∧ ⌊y⌋ % 2 = 1)

/-- The C library function `pow(x, y)` on doubles, by the cases of the C standard (Annex F):
`pow(x, 0)` is 1 for every x, NaN included; `pow(1, y)` is 1 for every y, NaN included; a
finite negative base with a finite non-integer exponent is a domain error, NaN; a zero base
with a negative exponent is a pole, +infinity; the other special cases follow the table of
the standard. On a positive base, and on a negative base with an integer exponent, the
result is the real power `rpow x y`. -/
def pow (rpow : α → α → α) (x y : Double α) : Double α :=
  match y with
  | Double.fin b =>
    if b = 0 then Double.fin 1
    else
      match x with
      | Double.nan => Double.nan
      | Double.fin a =>
        if a = 1 then Double.fin 1
        else if 0 < a then Double.fin (rpow a b)
        else if a = 0 then (if 0 < b then Double.fin 0 else Double.posInf)
        else if isInteger b then Double.fin (rpow a b)
        else Double.nan
      | Double.posInf => if 0 < b then Double.posInf else Double.fin 0
      | Double.negInf =>
        if 0 < b then (if isOddInteger b then Double.negInf else Double.posInf)
        else Double.fin 0
  | Double.nan =>
    match x with
    | Double.fin a => if a = 1 then Double.fin 1 else Double.nan
    | _ => Double.nan
  | Double.posInf =>
    match x with
    | Double.nan => Double.nan
    | Double.fin a =>
      if a = 1 ∨ a = -1 then Double.fin 1
      else if |a| < 1 then Double.fin 0
      else Double.posInf
    | Double.posInf => Double.posInf
    | Double.negInf => Double.posInf
  | Double.negInf =>
    match x with
    | Double.nan => Double.nan
    | Double.fin a =>
      if a = 1 ∨ a = -1 then Double.fin 1
      else if |a| < 1 then Double.posInf
      else Double.fin 0
    | Double.posInf => Double.fin 0
    | Double.negInf => Double.fin 0

/-- `NonUniformMutation::delta(y, bMutationParameter)` on doubles: `it` and `maxIt` are
converted to double, the quotient by `maxIt = 0` is an infinity or NaN. -/
def delta (rpow : α → α → α) (op : NonUniformMutation (Double α))
    (y bMutationParameter : Double α) (r : ℕ → α) (k : ℕ) : Double α × ℕ :=
  let d := PseudoRandom.randDouble r k
  let rand := Double.fin d.1
  let it := op.currentIteration_
  let maxIt := op.maxIterations_
  (Double.mul y
    (Double.sub (Double.fin 1)
      (pow rpow rand
        (pow rpow
          (Double.sub (Double.fin 1) (Double.div (Double.fin (it : α)) (Double.fin (maxIt : α))))
          bMutationParameter))), d.2)

/-- The body of the `for` loop of `doMutation` on doubles, for the variable at index `var`. -/
def mutateVariable (rpow : α → α → α) (op : NonUniformMutation (Double α))
    (probability : Double α) (r : ℕ → α) (v : Variable (Double α)) (k : ℕ) :
    Variable (Double α) × ℕ :=
  let minMaxRange := Double.div (Double.sub v.upperBound v.lowerBound) (Double.fin 2)
  let coin := PseudoRandom.randDouble r k
  if Double.lt (Double.fin coin.1) probability then
    let dir := PseudoRandom.randDouble r coin.2
    let rand := Double.fin dir.1
    let d :=
      if Double.le rand (Double.fin (1 / 2)) then
        delta rpow op (Double.sub v.upperBound v.value) op.perturbation_ r dir.2
      else
        delta rpow op (Double.sub v.lowerBound v.value) op.perturbation_ r dir.2
    let tmp := Double.add d.1 v.value
    if Double.lt tmp v.lowerBound then
      if Double.lt (Double.fin 0) op.perturbation_ ∧
          Double.lt op.perturbation_ (Double.fin 1) then
        let p := PseudoRandom.randDouble r d.2
        let prand := Double.mul (Double.fin p.1) op.perturbation_
        (v.setValue (Double.add v.lowerBound (Double.mul minMaxRange prand)), p.2)
      else
        (v.setValue (Double.add v.lowerBound minMaxRange), d.2)
    else if Double.lt v.upperBound tmp then
      if Double.lt (Double.fin 0) op.perturbation_ ∧
          Double.lt op.perturbation_ (Double.fin 1) then
        let p := PseudoRandom.randDouble r d.2
        let prand := Double.mul (Double.fin p.1) op.perturbation_
        (v.setValue (Double.sub v.upperBound (Double.mul minMaxRange prand)), p.2)
      else
        (v.setValue tmp, d.2)
    else
      (v.setValue tmp, d.2)
  else
    (v, coin.2)

/-- The `for` loop of `doMutation` on doubles, entered at index `var`. -/
def doMutationLoop (rpow : α → α → α) (op : NonUniformMutation (Double α))
    (probability : Double α) (r : ℕ → α) (var : ℕ) (x : Solution (Double α)) (k : ℕ) :
    Solution (Double α) × ℕ :=
  if h : var < x.length then
    let s := mutateVariable rpow op probability r x[var] k
    doMutationLoop rpow op probability r (var + 1) (x.set var s.1) s.2
  else
    (x, k)
termination_by x.length - var
decreasing_by
  simp only [List.length_set]
  omega

/-- `NonUniformMutation::doMutation(probability, solution)` on doubles. -/
def doMutation (rpow : α → α → α) (op : NonUniformMutation (Double α))
    (probability : Double α) (solution : Solution (Double α)) (r : ℕ → α) (k : ℕ) :
    Solution (Double α) × ℕ :=
  doMutationLoop rpow op probability r 0 solution k

/-- `NonUniformMutation::execute(object)` on doubles. -/
def execute (rpow : α → α → α) (op : NonUniformMutation (Double α))
    (solution : Solution (Double α)) (r : ℕ → α) (k : ℕ) :
    NonUniformMutation (Double α) × Solution (Double α) × ℕ :=
  let op1 :=
    match op.parameters_.currentIteration with
    | some it => { op with currentIteration_ := it }
    | none => op
  let s := doMutation rpow op1 op1.mutationProbability_ solution r k
  (op1, s.1, s.2)

/-- The variables of a list mutated one after the other on doubles, each starting at the
position of the random source where the one before stopped. -/
def mutateVars (rpow : α → α → α) (op : NonUniformMutation (Double α))
    (probability : Double α) (r : ℕ → α) :
    List (Variable (Double α)) → ℕ → List (Variable (Double α)) × ℕ
  | [], k => ([], k)
  | v :: vs, k =>
    ((mutateVariable rpow op probability r v k).1 ::
        (mutateVars rpow op probability r vs (mutateVariable rpow op probability r v k).2).1,
      (mutateVars rpow op probability r vs (mutateVariable rpow op probability r v k).2).2)

/-- The position of the random source when the loop on doubles reaches index `i`. -/
def drawsBefore (rpow : α → α → α) (op : NonUniformMutation (Double α))
    (probability : Double α) (r : ℕ → α) (x : Solution (Double α)) (k i : ℕ) : ℕ :=
  (mutateVars rpow op probability r (x.take i) k).2

end Ieee

namespace NonUniformMutation

variable {α : Type} [LinearOrderedField α]

theorem doMutationLoop_append (pow : α → α → α) (op : NonUniformMutation α) (probability : α)
    (r : ℕ → α) (suf : List (Variable α)) :
    ∀ (pre : List (Variable α)) (k : ℕ),
      doMutationLoop pow op probability r pre.length (pre ++ suf) k =
        (pre ++ (mutateVars pow op probability r suf k).1,
          (mutateVars pow op probability r suf k).2) := by
  induction suf with
  | nil =>
    intro pre k
    rw [doMutationLoop]
    simp [mutateVars]
  | cons v vs ih =>
    intro pre k
    rw [doMutationLoop]
    have hlt : pre.length < (pre ++ v :: vs).length := by simp
    rw [dif_pos hlt]
    have hget : (pre ++ v :: vs)[pre.length] = v := List.getElem_of_append rfl rfl
    have hset : ∀ w : Variable α,
        (pre ++ v :: vs).set pre.length w = (pre ++ [w]) ++ vs := by
      intro w
      simp [List.set_append]
    simp only [hget, hset]
    have hlen : ∀ w : Variable α, pre.length + 1 = (pre ++ [w]).length := by
      intro w
      simp
    rw [hlen (mutateVariable pow op probability r v k).1, ih]
    simp [mutateVars]

theorem doMutation_eq_mutateVars (pow : α → α → α) (op : NonUniformMutation α)
    (probability : α) (x : Solution α) (r : ℕ → α) (k : ℕ) :
    doMutation pow op probability x r k = mutateVars pow op probability r x k := by
  have h := doMutationLoop_append pow op probability r x [] k
  simpa [doMutation] using h

theorem mutateVars_length (pow : α → α → α) (op : NonUniformMutation α) (probability : α)
    (r : ℕ → α) (l : List (Variable α)) :
    ∀ k : ℕ, (mutateVars pow op probability r l k).1.length = l.length := by
  induction l with
  | nil => intro k; rfl
  | cons v vs ih => intro k; simp [mutateVars, ih]

/-- The variable at index `i` after the pass is the loop body applied to the variable at
index `i` before the pass, at the position the random source had reached by then. -/
theorem mutateVars_getElem_opt (pow : α → α → α) (op : NonUniformMutation α) (probability : α)
    (r : ℕ → α) (l : List (Variable α)) :
    ∀ (k i : ℕ), (mutateVars pow op probability r l k).1[i]? =
      (l[i]?).map (fun v =>
        (mutateVariable pow op probability r v
          (mutateVars pow op probability r (l.take i) k).2).1) := by
  induction l with
  | nil => intro k i; simp [mutateVars]
  | cons v vs ih =>
    intro k i
    cases i with
    | zero => simp [mutateVars]
    | succ j => simp [mutateVars, ih]

/-- A property of single variables that the loop body preserves at every position of the
random source is preserved by the whole pass. -/
theorem mutateVars_forall (pow : α → α → α) (op : NonUniformMutation α) (probability : α)
    (r : ℕ → α) (P : Variable α → Prop) (Q : Variable α → Prop)
    (hstep : ∀ (v : Variable α) (k : ℕ), P v → Q (mutateVariable pow op probability r v k).1)
    (l : List (Variable α)) :
    ∀ k : ℕ, (∀ v ∈ l, P v) → ∀ w ∈ (mutateVars pow op probability r l k).1, Q w := by
  induction l with
  | nil => intro k _ w hw; simp [mutateVars] at hw
  | cons v vs ih =>
    intro k hl w hw
    simp only [mutateVars, List.mem_cons] at hw
    rcases hw with rfl | hw
    · exact hstep v k (hl v (List.mem_cons_self v vs))
    · exact ih _ (fun u hu => hl u (List.mem_cons_of_mem v hu)) w hw

/-- The loop body never changes the bounds of its variable. -/
theorem mutateVariable_bounds (pow : α → α → α) (op : NonUniformMutation α) (probability : α)
    (r : ℕ → α) (v : Variable α) (k : ℕ) :
    (mutateVariable pow op probability r v k).1.lowerBound = v.lowerBound ∧
      (mutateVariable pow op probability r v k).1.upperBound = v.upperBound := by
  unfold mutateVariable
  simp only [PseudoRandom.randDouble, Variable.setValue]
  split_ifs <;> exact ⟨rfl, rfl⟩

theorem mutateVars_bounds (pow : α → α → α) (op : NonUniformMutation α) (probability : α)
    (r : ℕ → α) (l : List (Variable α)) :
    ∀ k : ℕ, (mutateVars pow op probability r l k).1.map
        (fun v => (v.lowerBound, v.upperBound)) =
      l.map (fun v => (v.lowerBound, v.upperBound)) := by
  induction l with
  | nil => intro k; rfl
  | cons v vs ih =>
    intro k
    simp [mutateVars, ih, (mutateVariable_bounds pow op probability r v k).1,
      (mutateVariable_bounds pow op probability r v k).2]

/-- With the shape parameter strictly between 0 and 1 the loop body leaves a variable that
was inside its bounds inside its bounds, whatever `delta` returned. -/
theorem mutateVariable_within (pow : α → α → α) (op : NonUniformMutation α) (probability : α)
    (r : ℕ → α) (v : Variable α) (k : ℕ)
    (hpert : 0 < op.perturbation_ ∧ op.perturbation_ < 1)
    (hr : ∀ n, 0 ≤ r n ∧ r n < 1)
    (hv : v.lowerBound ≤ v.upperBound ∧ v.lowerBound ≤ v.value ∧ v.value ≤ v.upperBound) :
    (mutateVariable pow op probability r v k).1.lowerBound ≤
        (mutateVariable pow op probability r v k).1.value ∧
      (mutateVariable pow op probability r v k).1.value ≤
        (mutateVariable pow op probability r v k).1.upperBound := by
  obtain ⟨hp0, hp1⟩ := hpert
  obtain ⟨hb, hlo, hhi⟩ := hv
  have hhalf : 0 ≤ (v.upperBound - v.lowerBound) / 2 := by linarith
  have hq : ∀ n, 0 ≤ r n * op.perturbation_ ∧ r n * op.perturbation_ ≤ 1 := by
    intro n
    obtain ⟨h0, h1⟩ := hr n
    refine ⟨mul_nonneg h0 hp0.le, ?_⟩
    calc r n * op.perturbation_ ≤ 1 * 1 :=
          mul_le_mul h1.le hp1.le hp0.le zero_le_one
      _ = 1 := mul_one 1
  have hrep : ∀ n, 0 ≤ (v.upperBound - v.lowerBound) / 2 * (r n * op.perturbation_) ∧
      (v.upperBound - v.lowerBound) / 2 * (r n * op.perturbation_) ≤
        (v.upperBound - v.lowerBound) / 2 := by
    intro n
    exact ⟨mul_nonneg hhalf (hq n).1, mul_le_of_le_one_right hhalf (hq n).2⟩
  unfold mutateVariable
  simp only [PseudoRandom.randDouble, Variable.setValue, delta]
  split_ifs with h1 h2 h3 h4 h5 h6 h7 <;> simp only [] <;>
    first
      | exact ⟨hlo, hhi⟩
      | (constructor <;> linarith [(hrep (k + 1 + 1 + 1)).1, (hrep (k + 1 + 1 + 1)).2])
      | (exfalso; exact ‹¬(0 < op.perturbation_ ∧ op.perturbation_ < 1)› ⟨hp0, hp1⟩)

theorem mutateVariable_probability_zero (pow : α → α → α) (op : NonUniformMutation α)
    (r : ℕ → α) (v : Variable α) (k : ℕ) (hr : 0 ≤ r k) :
    mutateVariable pow op 0 r v k = (v, k + 1) := by
  unfold mutateVariable
  simp only [PseudoRandom.randDouble]
  rw [if_neg (not_lt.mpr hr)]

theorem mutateVars_probability_zero (pow : α → α → α) (op : NonUniformMutation α)
    (r : ℕ → α) (hr : ∀ n, 0 ≤ r n) (l : List (Variable α)) :
    ∀ k : ℕ, mutateVars pow op 0 r l k = (l, k + l.length) := by
  induction l with
  | nil => intro k; rfl
  | cons v vs ih =>
    intro k
    simp only [mutateVars, mutateVariable_probability_zero pow op r v k (hr k), ih,
      List.length_cons]
    congr 1
    omega

/-- C2: with mutation probability 0, for every solution, perturbation, currentIteration and
maxIterations and every sequence of draws in [0,1), `doMutation` returns the solution it
was given, and so does `execute` on an operator whose stored probability is 0. -/
theorem doMutation_probability_zero (pow : ℝ → ℝ → ℝ) (op : NonUniformMutation ℝ)
    (x : Solution ℝ) (r : ℕ → ℝ) (k : ℕ) (hr : ∀ n, 0 ≤ r n ∧ r n < 1) :
    (doMutation pow op 0 x r k).1 = x ∧
      (op.mutationProbability_ = 0 → (execute pow op x r k).2.1 = x) := by
  have h0 : ∀ o : NonUniformMutation ℝ, (doMutation pow o 0 x r k).1 = x := by
    intro o
    rw [doMutation_eq_mutateVars, mutateVars_probability_zero pow o r (fun n => (hr n).1)]
  refine ⟨h0 op, ?_⟩
  intro hp
  unfold execute
  cases hc : op.parameters_.currentIteration with
  | none => simp only [hp]; exact h0 op
  | some it => simp only [hp]; exact h0 _

theorem doMutation_probability_zero_witness :
    (∀ n, (0 : ℝ) ≤ sampleDraws ℝ n ∧ sampleDraws ℝ n < 1) ∧
      (doMutation (fun a b : ℝ => a ^ b) (sampleOperator ℝ) 0 (sampleSolution ℝ)
        (sampleDraws ℝ) 0).1 = sampleSolution ℝ :=
  ⟨by intro n; norm_num [sampleDraws],
    (doMutation_probability_zero (fun a b : ℝ => a ^ b) (sampleOperator ℝ) (sampleSolution ℝ)
      (sampleDraws ℝ) 0 (by intro n; norm_num [sampleDraws])).1⟩

/-- C3: mutation probability 1, maxIterations 1, currentIteration 0, one variable with
bounds [0,10] and value 5: for every perturbation and every sequence of draws in [0,1) the
pass returns one variable with the same bounds whose value is 5 + 5 (1 - rand) when the
direction draw is at most 1/2 and 5 - 5 (1 - rand) otherwise, hence a value in [0,10]. -/
theorem doMutation_first_generation_scenario (bag : ParameterBag ℝ) (perturbation : ℝ)
    (r : ℕ → ℝ) (k : ℕ) (hr : ∀ n, 0 ≤ r n ∧ r n < 1) :
    (doMutation (fun a b : ℝ => a ^ b) ⟨bag, 1, perturbation, 1, 0⟩ 1 [⟨5, 0, 10⟩] r k).1 =
        [⟨if r (k + 1) ≤ 1 / 2 then 5 + 5 * (1 - r (k + 2)) else 5 - 5 * (1 - r (k + 2)),
          0, 10⟩] ∧
      ∀ w ∈ (doMutation (fun a b : ℝ => a ^ b) ⟨bag, 1, perturbation, 1, 0⟩ 1
          [⟨5, 0, 10⟩] r k).1, 0 ≤ w.value ∧ w.value ≤ 10 := by
  have h0 := (hr (k + 2)).1
  have h1 := (hr (k + 2)).2
  have hval : (doMutation (fun a b : ℝ => a ^ b) ⟨bag, 1, perturbation, 1, 0⟩ 1
      [⟨5, 0, 10⟩] r k).1 =
        [⟨if r (k + 1) ≤ 1 / 2 then 5 + 5 * (1 - r (k + 2)) else 5 - 5 * (1 - r (k + 2)),
          0, 10⟩] := by
    rw [doMutation_eq_mutateVars]
    simp only [mutateVars, mutateVariable, PseudoRandom.randDouble, delta, Variable.setValue,
      (hr k).2, if_true, Int.cast_zero, Int.cast_one, zero_div, sub_zero, Real.one_rpow,
      Real.rpow_one]
    by_cases hd : r (k + 1) ≤ 1 / 2
    · simp only [hd, if_true]
      rw [if_neg (by linarith), if_neg (by linarith)]
      simp only [List.cons.injEq, Variable.mk.injEq, and_true]
      ring
    · simp only [hd, if_false]
      rw [if_neg (by linarith), if_neg (by linarith)]
      simp only [List.cons.injEq, Variable.mk.injEq, and_true]
      ring
  refine ⟨hval, ?_⟩
  intro w hw
  rw [hval, List.mem_singleton] at hw
  subst hw
  by_cases hd : r (k + 1) ≤ 1 / 2
  · simp only [hd, if_true]
    constructor <;> linarith
  · simp only [hd, if_false]
    constructor <;> linarith

theorem doMutation_first_generation_scenario_witness :
    (∀ n, (0 : ℝ) ≤ sampleDraws ℝ n ∧ sampleDraws ℝ n < 1) ∧
      (doMutation (fun a b : ℝ => a ^ b) ⟨⟨none, none, none, none⟩, 1, 3, 1, 0⟩ 1
        [⟨5, 0, 10⟩] (sampleDraws ℝ) 0).1 = [⟨35 / 4, 0, 10⟩] :=
  ⟨by intro n; norm_num [sampleDraws], by
    have h := (doMutation_first_generation_scenario ⟨none, none, none, none⟩ 3 (sampleDraws ℝ) 0
      (by intro n; norm_num [sampleDraws])).1
    rw [h]
    norm_num [sampleDraws]⟩

/-- The loop body in terms of its four draws: the coin at `k`, the direction at `k + 1`,
the draw of `delta` at `k + 2` (both inside `candidate`) and the repair draw at `k + 3`. -/
theorem mutateVariable_eq (pow : α → α → α) (op : NonUniformMutation α) (probability : α)
    (r : ℕ → α) (v : Variable α) (k : ℕ) :
    mutateVariable pow op probability r v k =
      if r k < probability then
        if candidate pow op r v k < v.lowerBound then
          if 0 < op.perturbation_ ∧ op.perturbation_ < 1 then
            (v.setValue (v.lowerBound +
              (v.upperBound - v.lowerBound) / 2 * (r (k + 3) * op.perturbation_)), k + 4)
          else
            (v.setValue (v.lowerBound + (v.upperBound - v.lowerBound) / 2), k + 3)
        else if candidate pow op r v k > v.upperBound then
          if 0 < op.perturbation_ ∧ op.perturbation_ < 1 then
            (v.setValue (v.upperBound -
              (v.upperBound - v.lowerBound) / 2 * (r (k + 3) * op.perturbation_)), k + 4)
          else
            (v.setValue (candidate pow op r v k), k + 3)
        else
          (v.setValue (candidate pow op r v k), k + 3)
      else
        (v, k + 1) := by
  unfold mutateVariable candidate
  simp only [PseudoRandom.randDouble, delta]
  by_cases hd : r (k + 1) ≤ 1 / 2
  · simp only [hd, if_true]
  · simp only [hd, if_false]

theorem mutateVars_take_succ (pow : α → α → α) (op : NonUniformMutation α) (probability : α)
    (r : ℕ → α) (l : List (Variable α)) :
    ∀ (k i : ℕ) (v : Variable α), l[i]? = some v →
      (mutateVars pow op probability r (l.take (i + 1)) k).2 =
        (mutateVariable pow op probability r v
          (mutateVars pow op probability r (l.take i) k).2).2 := by
  induction l with
  | nil => intro k i v h; simp at h
  | cons u us ih =>
    intro k i v h
    cases i with
    | zero =>
      simp only [List.getElem?_cons_zero, Option.some.injEq] at h
      subst h
      simp [mutateVars]
    | succ j =>
      simp only [List.getElem?_cons_succ] at h
      simp only [List.take_succ_cons, mutateVars]
      exact ih _ j v h

/-- The variable at index `i` after `doMutation` is the loop body applied to the variable
at index `i` before the call, at position `drawsBefore … i` of the random source. -/
theorem doMutation_getElem_opt (pow : α → α → α) (op : NonUniformMutation α) (probability : α)
    (x : Solution α) (r : ℕ → α) (k i : ℕ) (v : Variable α) (hi : x[i]? = some v) :
    (doMutation pow op probability x r k).1[i]? =
      some (mutateVariable pow op probability r v
        (drawsBefore pow op probability r x k i)).1 := by
  rw [doMutation_eq_mutateVars, mutateVars_getElem_opt, hi]
  rfl

/-- The loop reaches index `i + 1` at the position where the body for index `i` stopped. -/
theorem drawsBefore_succ (pow : α → α → α) (op : NonUniformMutation α) (probability : α)
    (x : Solution α) (r : ℕ → α) (k i : ℕ) (v : Variable α) (hi : x[i]? = some v) :
    drawsBefore pow op probability r x k (i + 1) =
      (mutateVariable pow op probability r v (drawsBefore pow op probability r x k i)).2 :=
  mutateVars_take_succ pow op probability r x k i v hi

theorem drawsBefore_length (pow : α → α → α) (op : NonUniformMutation α) (probability : α)
    (x : Solution α) (r : ℕ → α) (k : ℕ) :
    drawsBefore pow op probability r x k x.length = (doMutation pow op probability x r k).2 := by
  rw [doMutation_eq_mutateVars, drawsBefore, List.take_length]

theorem drawsBefore_zero (pow : α → α → α) (op : NonUniformMutation α) (probability : α)
    (x : Solution α) (r : ℕ → α) (k : ℕ) :
    drawsBefore pow op probability r x k 0 = k := by
  simp [drawsBefore, mutateVars]

/-- At generation 0 of 1 the exponent of `delta` is 1, so the candidate is the value plus
the chosen distance times (1 - rand). -/
theorem candidate_firstGeneration (q : ℝ) (r : ℕ → ℝ) (v : Variable ℝ) (k : ℕ) :
    candidate (fun a b : ℝ => a ^ b) (firstGenerationOperator ℝ q) r v k =
      (if r (k + 1) ≤ 1 / 2 then v.upperBound - v.value else v.lowerBound - v.value) *
        (1 - r (k + 2)) + v.value := by
  unfold candidate
  simp only [delta, PseudoRandom.randDouble, firstGenerationOperator, Int.cast_zero,
    Int.cast_one, zero_div, sub_zero, Real.one_rpow, Real.rpow_one]
  split_ifs <;> rfl

/-- C6: for a variable with lowerBound ≤ upperBound that the coin selects and whose
candidate is strictly above upperBound, a perturbation outside (0,1) makes `doMutation`
store the candidate itself, so the stored value is strictly above upperBound, and only
the three draws coin, direction and decay are consumed; the case occurs: value 12 with
bounds [0,10], perturbation 1, generation 0 of 1 and all draws 1/4 stores 10.5. -/
theorem doMutation_upper_overflow_unrepaired (pow : ℝ → ℝ → ℝ) (op : NonUniformMutation ℝ)
    (probability : ℝ) (x : Solution ℝ) (r : ℕ → ℝ) (k i : ℕ) (v : Variable ℝ)
    (hi : x[i]? = some v) (hb : v.lowerBound ≤ v.upperBound)
    (hcoin : r (drawsBefore pow op probability r x k i) < probability)
    (hcand : v.upperBound < candidate pow op r v (drawsBefore pow op probability r x k i))
    (hpert : ¬(0 < op.perturbation_ ∧ op.perturbation_ < 1)) :
    (∃ w, (doMutation pow op probability x r k).1[i]? = some w ∧
        w.value = candidate pow op r v (drawsBefore pow op probability r x k i) ∧
        w.upperBound = v.upperBound ∧ w.upperBound < w.value) ∧
      drawsBefore pow op probability r x k (i + 1) =
        drawsBefore pow op probability r x k i + 3 ∧
      (doMutation (fun a b : ℝ => a ^ b) (firstGenerationOperator ℝ 1) 1 (outsideSolution ℝ)
        (sampleDraws ℝ) 0).1 = [⟨21 / 2, 0, 10⟩] := by
  have hnl : ¬ candidate pow op r v (drawsBefore pow op probability r x k i) < v.lowerBound :=
    not_lt.mpr (le_trans hb hcand.le)
  have hbody : mutateVariable pow op probability r v
      (drawsBefore pow op probability r x k i) =
        (v.setValue (candidate pow op r v (drawsBefore pow op probability r x k i)),
          drawsBefore pow op probability r x k i + 3) := by
    rw [mutateVariable_eq, if_pos hcoin, if_neg hnl, if_pos hcand, if_neg hpert]
  refine ⟨⟨_, doMutation_getElem_opt pow op probability x r k i v hi, ?_, ?_, ?_⟩, ?_, ?_⟩
  · rw [hbody]; rfl
  · rw [hbody]; rfl
  · rw [hbody]; exact hcand
  · rw [drawsBefore_succ pow op probability x r k i v hi, hbody]
  · rw [doMutation_eq_mutateVars]
    simp only [outsideSolution, mutateVars, mutateVariable_eq, candidate_firstGeneration]
    norm_num [sampleDraws, firstGenerationOperator, Variable.setValue]

theorem doMutation_upper_overflow_unrepaired_witness :
    (outsideSolution ℝ)[0]? = some ⟨12, 0, 10⟩ ∧
      (∃ w, (doMutation (fun a b : ℝ => a ^ b) (firstGenerationOperator ℝ 1) 1
          (outsideSolution ℝ) (sampleDraws ℝ) 0).1[0]? = some w ∧
        w.value = candidate (fun a b : ℝ => a ^ b) (firstGenerationOperator ℝ 1)
          (sampleDraws ℝ) ⟨12, 0, 10⟩
          (drawsBefore (fun a b : ℝ => a ^ b) (firstGenerationOperator ℝ 1) 1 (sampleDraws ℝ)
            (outsideSolution ℝ) 0 0) ∧
        w.upperBound = (10 : ℝ) ∧ w.upperBound < w.value) :=
  ⟨rfl, (doMutation_upper_overflow_unrepaired (fun a b : ℝ => a ^ b)
    (firstGenerationOperator ℝ 1) 1 (outsideSolution ℝ) (sampleDraws ℝ) 0 0 ⟨12, 0, 10⟩ rfl
    (by norm_num)
    (by norm_num [sampleDraws])
    (by rw [candidate_firstGeneration]; norm_num [sampleDraws])
    (by norm_num [firstGenerationOperator])).1⟩

/-- C7: for a variable that the coin selects and whose candidate is strictly below
lowerBound, a perturbation outside (0,1) makes `doMutation` store exactly
lowerBound + (upperBound - lowerBound) / 2, and the variable consumes only the three draws
coin, direction and decay: the loop reaches the next index three positions later. -/
theorem doMutation_lower_overflow_midpoint (pow : ℝ → ℝ → ℝ) (op : NonUniformMutation ℝ)
    (probability : ℝ) (x : Solution ℝ) (r : ℕ → ℝ) (k i : ℕ) (v : Variable ℝ)
    (hi : x[i]? = some v)
    (hcoin : r (drawsBefore pow op probability r x k i) < probability)
    (hcand : candidate pow op r v (drawsBefore pow op probability r x k i) < v.lowerBound)
    (hpert : ¬(0 < op.perturbation_ ∧ op.perturbation_ < 1)) :
    (doMutation pow op probability x r k).1[i]? =
        some ⟨v.lowerBound + (v.upperBound - v.lowerBound) / 2, v.lowerBound, v.upperBound⟩ ∧
      drawsBefore pow op probability r x k (i + 1) =
        drawsBefore pow op probability r x k i + 3 := by
  have hbody : mutateVariable pow op probability r v
      (drawsBefore pow op probability r x k i) =
        (v.setValue (v.lowerBound + (v.upperBound - v.lowerBound) / 2),
          drawsBefore pow op probability r x k i + 3) := by
    rw [mutateVariable_eq, if_pos hcoin, if_pos hcand, if_neg hpert]
  constructor
  · rw [doMutation_getElem_opt pow op probability x r k i v hi, hbody]
    rfl
  · rw [drawsBefore_succ pow op probability x r k i v hi, hbody]

theorem doMutation_lower_overflow_midpoint_witness :
    (belowSolution ℝ)[0]? = some ⟨-2, 0, 10⟩ ∧
      (doMutation (fun a b : ℝ => a ^ b) (firstGenerationOperator ℝ 1) 1 (belowSolution ℝ)
        (downwardDraws ℝ) 0).1[0]? = some ⟨5, 0, 10⟩ :=
  ⟨rfl, by
    have h := (doMutation_lower_overflow_midpoint (fun a b : ℝ => a ^ b)
      (firstGenerationOperator ℝ 1) 1 (belowSolution ℝ) (downwardDraws ℝ) 0 0 ⟨-2, 0, 10⟩ rfl
      (by norm_num [downwardDraws, drawsBefore_zero, firstGenerationOperator])
      (by rw [candidate_firstGeneration]; norm_num [downwardDraws, drawsBefore_zero])
      (by norm_num [firstGenerationOperator])).1
    rw [h]
    norm_num⟩

/-- C8: for a variable with lowerBound ≤ upperBound that the coin selects, with the
perturbation in (0,1) and draws in [0,1): a candidate below lowerBound is replaced by
lowerBound + halfRange (p perturbation) and a candidate above upperBound by
upperBound - halfRange (p perturbation), where p is the fourth draw of the variable and
halfRange = (upperBound - lowerBound) / 2; the variable consumes four draws; the offset
halfRange (p perturbation) is between 0 and halfRange perturbation, strictly below it
when lowerBound < upperBound. -/
theorem doMutation_randomised_repair (pow : ℝ → ℝ → ℝ) (op : NonUniformMutation ℝ)
    (probability : ℝ) (x : Solution ℝ) (r : ℕ → ℝ) (k i : ℕ) (v : Variable ℝ)
    (hi : x[i]? = some v) (hb : v.lowerBound ≤ v.upperBound)
    (hcoin : r (drawsBefore pow op probability r x k i) < probability)
    (hpert : 0 < op.perturbation_ ∧ op.perturbation_ < 1)
    (hr : ∀ n, 0 ≤ r n ∧ r n < 1) :
    (candidate pow op r v (drawsBefore pow op probability r x k i) < v.lowerBound →
        (doMutation pow op probability x r k).1[i]? =
            some ⟨v.lowerBound + (v.upperBound - v.lowerBound) / 2 *
              (r (drawsBefore pow op probability r x k i + 3) * op.perturbation_),
              v.lowerBound, v.upperBound⟩ ∧
          drawsBefore pow op probability r x k (i + 1) =
            drawsBefore pow op probability r x k i + 4) ∧
      (v.upperBound < candidate pow op r v (drawsBefore pow op probability r x k i) →
        (doMutation pow op probability x r k).1[i]? =
            some ⟨v.upperBound - (v.upperBound - v.lowerBound) / 2 *
              (r (drawsBefore pow op probability r x k i + 3) * op.perturbation_),
              v.lowerBound, v.upperBound⟩ ∧
          drawsBefore pow op probability r x k (i + 1) =
            drawsBefore pow op probability r x k i + 4) ∧
      0 ≤ (v.upperBound - v.lowerBound) / 2 *
          (r (drawsBefore pow op probability r x k i + 3) * op.perturbation_) ∧
      (v.upperBound - v.lowerBound) / 2 *
          (r (drawsBefore pow op probability r x k i + 3) * op.perturbation_) ≤
        (v.upperBound - v.lowerBound) / 2 * op.perturbation_ ∧
      (v.lowerBound < v.upperBound →
        (v.upperBound - v.lowerBound) / 2 *
            (r (drawsBefore pow op probability r x k i + 3) * op.perturbation_) <
          (v.upperBound - v.lowerBound) / 2 * op.perturbation_) := by
  obtain ⟨hp0, hp1⟩ := hpert
  obtain ⟨hr0, hr1⟩ := hr (drawsBefore pow op probability r x k i + 3)
  have hhalf : 0 ≤ (v.upperBound - v.lowerBound) / 2 := by linarith
  have hq : r (drawsBefore pow op probability r x k i + 3) * op.perturbation_ <
      op.perturbation_ := by
    calc r (drawsBefore pow op probability r x k i + 3) * op.perturbation_
        < 1 * op.perturbation_ := mul_lt_mul_of_pos_right hr1 hp0
      _ = op.perturbation_ := one_mul _
  refine ⟨?_, ?_, mul_nonneg hhalf (mul_nonneg hr0 hp0.le),
    mul_le_mul_of_nonneg_left hq.le hhalf, ?_⟩
  · intro hlo
    have hbody : mutateVariable pow op probability r v
        (drawsBefore pow op probability r x k i) =
          (v.setValue (v.lowerBound + (v.upperBound - v.lowerBound) / 2 *
            (r (drawsBefore pow op probability r x k i + 3) * op.perturbation_)),
            drawsBefore pow op probability r x k i + 4) := by
      rw [mutateVariable_eq, if_pos hcoin, if_pos hlo, if_pos ⟨hp0, hp1⟩]
    constructor
    · rw [doMutation_getElem_opt pow op probability x r k i v hi, hbody]
      rfl
    · rw [drawsBefore_succ pow op probability x r k i v hi, hbody]
  · intro hup
    have hnl : ¬ candidate pow op r v (drawsBefore pow op probability r x k i) <
        v.lowerBound := not_lt.mpr (le_trans hb hup.le)
    have hbody : mutateVariable pow op probability r v
        (drawsBefore pow op probability r x k i) =
          (v.setValue (v.upperBound - (v.upperBound - v.lowerBound) / 2 *
            (r (drawsBefore pow op probability r x k i + 3) * op.perturbation_)),
            drawsBefore pow op probability r x k i + 4) := by
      rw [mutateVariable_eq, if_pos hcoin, if_neg hnl, if_pos hup, if_pos ⟨hp0, hp1⟩]
    constructor
    · rw [doMutation_getElem_opt pow op probability x r k i v hi, hbody]
      rfl
    · rw [drawsBefore_succ pow op probability x r k i v hi, hbody]
  · intro hlt
    exact mul_lt_mul_of_pos_left hq (by linarith)

theorem doMutation_randomised_repair_witness :
    (outsideSolution ℝ)[0]? = some ⟨12, 0, 10⟩ ∧
      (∀ n, (0 : ℝ) ≤ sampleDraws ℝ n ∧ sampleDraws ℝ n < 1) ∧
      (doMutation (fun a b : ℝ => a ^ b) (firstGenerationOperator ℝ (1 / 2)) 1
        (outsideSolution ℝ) (sampleDraws ℝ) 0).1[0]? = some ⟨75 / 8, 0, 10⟩ :=
  ⟨rfl, by intro n; norm_num [sampleDraws], by
    have h := ((doMutation_randomised_repair (fun a b : ℝ => a ^ b)
      (firstGenerationOperator ℝ (1 / 2)) 1 (outsideSolution ℝ) (sampleDraws ℝ) 0 0
      ⟨12, 0, 10⟩ rfl (by norm_num) (by norm_num [sampleDraws])
      (by norm_num [firstGenerationOperator])
      (by intro n; norm_num [sampleDraws])).2.1
      (by rw [candidate_firstGeneration]; norm_num [sampleDraws])).1
    rw [h]
    norm_num [sampleDraws, firstGenerationOperator]⟩

/-- C9: `doMutation` on a solution without variables consumes no draw and returns it; the
loop starts at the initial position of the random source and ends at the position returned;
for the variable at index `i`, reached at position `j`: the coin is draw `j`; if the coin is
below the probability the direction is draw `j + 1` and `delta` uses draw `j + 2`; if the
candidate is out of bounds and the perturbation is in (0,1) the repair uses draw `j + 3`;
the loop reaches index `i + 1` at position `j + 1`, `j + 3` or `j + 4` accordingly. -/
theorem doMutation_draw_order (pow : ℝ → ℝ → ℝ) (op : NonUniformMutation ℝ)
    (probability : ℝ) (x : Solution ℝ) (r : ℕ → ℝ) (k i j : ℕ) (v : Variable ℝ)
    (hi : x[i]? = some v) (hj : j = drawsBefore pow op probability r x k i) :
    doMutation pow op probability [] r k = ([], k) ∧
      drawsBefore pow op probability r x k 0 = k ∧
      drawsBefore pow op probability r x k x.length =
        (doMutation pow op probability x r k).2 ∧
      candidate pow op r v j =
        (if r (j + 1) ≤ 1 / 2 then v.upperBound - v.value else v.lowerBound - v.value) *
          (1 - pow (r (j + 2))
            (pow (1 - (op.currentIteration_ : ℝ) / (op.maxIterations_ : ℝ))
              op.perturbation_)) + v.value ∧
      (doMutation pow op probability x r k).1[i]? =
        some (if r j < probability then
          if candidate pow op r v j < v.lowerBound then
            if 0 < op.perturbation_ ∧ op.perturbation_ < 1 then
              ⟨v.lowerBound + (v.upperBound - v.lowerBound) / 2 *
                (r (j + 3) * op.perturbation_), v.lowerBound, v.upperBound⟩
            else
              ⟨v.lowerBound + (v.upperBound - v.lowerBound) / 2, v.lowerBound,
                v.upperBound⟩
          else if v.upperBound < candidate pow op r v j then
            if 0 < op.perturbation_ ∧ op.perturbation_ < 1 then
              ⟨v.upperBound - (v.upperBound - v.lowerBound) / 2 *
                (r (j + 3) * op.perturbation_), v.lowerBound, v.upperBound⟩
            else
              ⟨candidate pow op r v j, v.lowerBound, v.upperBound⟩
          else
            ⟨candidate pow op r v j, v.lowerBound, v.upperBound⟩
        else v) ∧
      drawsBefore pow op probability r x k (i + 1) =
        (if r j < probability then
          if (candidate pow op r v j < v.lowerBound ∨ v.upperBound < candidate pow op r v j) ∧
              (0 < op.perturbation_ ∧ op.perturbation_ < 1) then j + 4
          else j + 3
        else j + 1) ∧
      (drawsBefore pow op probability r x k (i + 1) = j + 1 ∨
        drawsBefore pow op probability r x k (i + 1) = j + 3 ∨
        drawsBefore pow op probability r x k (i + 1) = j + 4) := by
  have hcand : candidate pow op r v j =
      (if r (j + 1) ≤ 1 / 2 then v.upperBound - v.value else v.lowerBound - v.value) *
        (1 - pow (r (j + 2))
          (pow (1 - (op.currentIteration_ : ℝ) / (op.maxIterations_ : ℝ))
            op.perturbation_)) + v.value := by
    unfold candidate
    simp only [delta, PseudoRandom.randDouble]
    split_ifs <;> rfl
  have hnext : drawsBefore pow op probability r x k (i + 1) =
      (if r j < probability then
        if (candidate pow op r v j < v.lowerBound ∨ v.upperBound < candidate pow op r v j) ∧
            (0 < op.perturbation_ ∧ op.perturbation_ < 1) then j + 4
        else j + 3
      else j + 1) := by
    rw [drawsBefore_succ pow op probability x r k i v hi, ← hj, mutateVariable_eq]
    by_cases h1 : r j < probability <;> by_cases h2 : candidate pow op r v j < v.lowerBound <;>
      by_cases h3 : v.upperBound < candidate pow op r v j <;>
      by_cases h4 : 0 < op.perturbation_ ∧ op.perturbation_ < 1 <;>
      simp [h1, h2, h3, h4]
  refine ⟨?_, drawsBefore_zero pow op probability x r k,
    drawsBefore_length pow op probability x r k, hcand, ?_, hnext, ?_⟩
  · rw [doMutation_eq_mutateVars]
    rfl
  · rw [doMutation_getElem_opt pow op probability x r k i v hi, ← hj, mutateVariable_eq]
    simp only [Variable.setValue, gt_iff_lt]
    split_ifs <;> rfl
  · rw [hnext]
    split_ifs
    · exact Or.inr (Or.inr rfl)
    · exact Or.inr (Or.inl rfl)
    · exact Or.inl rfl

theorem doMutation_draw_order_witness :
    (sampleSolution ℝ)[0]? = some ⟨5, 0, 10⟩ ∧
      drawsBefore (fun a b : ℝ => a ^ b) (firstGenerationOperator ℝ 1) 1 (sampleDraws ℝ)
        (sampleSolution ℝ) 0 1 = 3 :=
  ⟨rfl, by
    have h := (doMutation_draw_order (fun a b : ℝ => a ^ b) (firstGenerationOperator ℝ 1) 1
      (sampleSolution ℝ) (sampleDraws ℝ) 0 0 0 ⟨5, 0, 10⟩ rfl
      (drawsBefore_zero _ _ _ _ _ _).symm).2.2.2.2.2.1
    rw [h, candidate_firstGeneration]
    norm_num [sampleDraws, firstGenerationOperator]⟩

/-- C10: `execute` stores in `currentIteration_` the value the bag holds under
`currentIteration`, or keeps the previous value when the key is absent; it changes neither
the bag nor `mutationProbability_`, `perturbation_`, `maxIterations_`; the solution and the
position it returns are those of `doMutation` run with the stored probability on the
operator with the refreshed `currentIteration_`, so every `delta` of the call divides the
refreshed value by `maxIterations_`. -/
theorem execute_frame (pow : ℝ → ℝ → ℝ) (op : NonUniformMutation ℝ) (x : Solution ℝ)
    (r : ℕ → ℝ) (k : ℕ) :
    (execute pow op x r k).1.currentIteration_ =
        op.parameters_.currentIteration.getD op.currentIteration_ ∧
      (execute pow op x r k).1.mutationProbability_ = op.mutationProbability_ ∧
      (execute pow op x r k).1.perturbation_ = op.perturbation_ ∧
      (execute pow op x r k).1.maxIterations_ = op.maxIterations_ ∧
      (execute pow op x r k).1.parameters_ = op.parameters_ ∧
      (execute pow op x r k).2 =
        doMutation pow
          { op with currentIteration_ :=
              op.parameters_.currentIteration.getD op.currentIteration_ }
          op.mutationProbability_ x r k ∧
      ∀ (y b : ℝ) (n : ℕ), delta pow (execute pow op x r k).1 y b r n =
        (y * (1 - pow (r n)
          (pow (1 - ((op.parameters_.currentIteration.getD op.currentIteration_ : ℤ) : ℝ) /
            (op.maxIterations_ : ℝ)) b)), n + 1) := by
  unfold execute
  cases hc : op.parameters_.currentIteration with
  | none =>
    refine ⟨rfl, rfl, rfl, rfl, rfl, rfl, ?_⟩
    intro y b n
    rfl
  | some it =>
    refine ⟨rfl, rfl, rfl, rfl, rfl, rfl, ?_⟩
    intro y b n
    rfl

/-- A pass whose loop body returns every variable of the list as it was returns the list. -/
theorem mutateVars_fst_eq_self (pow : α → α → α) (op : NonUniformMutation α) (probability : α)
    (r : ℕ → α) (l : List (Variable α)) :
    ∀ k : ℕ, (∀ v ∈ l, ∀ j, (mutateVariable pow op probability r v j).1 = v) →
      (mutateVars pow op probability r l k).1 = l := by
  induction l with
  | nil => intro k _; rfl
  | cons v vs ih =>
    intro k h
    simp only [mutateVars]
    rw [h v (List.mem_cons_self v vs) k,
      ih _ (fun u hu => h u (List.mem_cons_of_mem v hu))]

/-- At the last generation the exponent of `delta` is 0 and its result is 0. -/
theorem delta_lastGeneration (op : NonUniformMutation ℝ) (y : ℝ) (r : ℕ → ℝ) (k : ℕ)
    (hcur : op.currentIteration_ = op.maxIterations_) (hmax : 1 ≤ op.maxIterations_)
    (hpert : 0 < op.perturbation_) :
    delta (fun a b : ℝ => a ^ b) op y op.perturbation_ r k = (0, k + 1) := by
  have hm : (op.maxIterations_ : ℝ) ≠ 0 := by
    have : (0 : ℤ) < op.maxIterations_ := by omega
    exact_mod_cast this.ne'
  simp only [delta, PseudoRandom.randDouble, hcur, div_self hm, sub_self,
    Real.zero_rpow hpert.ne', Real.rpow_zero, mul_zero]

/-- C11: when currentIteration = maxIterations ≥ 1 and the perturbation is positive,
`delta(y, perturbation)` is 0 for every distance and every draw, and `doMutation` returns
every variable whose value lies within its bounds as it was, for every mutation
probability, 1 included; a solution with all variables within bounds is returned unchanged. -/
theorem doMutation_final_generation (op : NonUniformMutation ℝ)
    (hcur : op.currentIteration_ = op.maxIterations_) (hmax : 1 ≤ op.maxIterations_)
    (hpert : 0 < op.perturbation_) :
    (∀ (y : ℝ) (r : ℕ → ℝ) (k : ℕ),
        delta (fun a b : ℝ => a ^ b) op y op.perturbation_ r k = (0, k + 1)) ∧
      (∀ (probability : ℝ) (x : Solution ℝ) (r : ℕ → ℝ) (k i : ℕ) (v : Variable ℝ),
        x[i]? = some v → v.lowerBound ≤ v.value ∧ v.value ≤ v.upperBound →
          (doMutation (fun a b : ℝ => a ^ b) op probability x r k).1[i]? = some v) ∧
      ∀ (probability : ℝ) (x : Solution ℝ) (r : ℕ → ℝ) (k : ℕ),
        (∀ v ∈ x, v.lowerBound ≤ v.value ∧ v.value ≤ v.upperBound) →
          (doMutation (fun a b : ℝ => a ^ b) op probability x r k).1 = x := by
  have hbody : ∀ (probability : ℝ) (r : ℕ → ℝ) (v : Variable ℝ) (j : ℕ),
      v.lowerBound ≤ v.value ∧ v.value ≤ v.upperBound →
        (mutateVariable (fun a b : ℝ => a ^ b) op probability r v j).1 = v := by
    intro probability r v j hv
    have hc : candidate (fun a b : ℝ => a ^ b) op r v j = v.value := by
      unfold candidate
      split_ifs <;> simp [delta_lastGeneration op _ r (j + 2) hcur hmax hpert]
    rw [mutateVariable_eq, hc, if_neg (not_lt.mpr hv.1), if_neg (not_lt.mpr hv.2)]
    split_ifs <;> rfl
  refine ⟨fun y r k => delta_lastGeneration op y r k hcur hmax hpert, ?_, ?_⟩
  · intro probability x r k i v hi hv
    rw [doMutation_getElem_opt _ op probability x r k i v hi, hbody probability r v _ hv]
  · intro probability x r k hx
    rw [doMutation_eq_mutateVars]
    apply mutateVars_fst_eq_self
    intro v hv j
    exact hbody probability r v j (hx v hv)

theorem doMutation_final_generation_witness :
    (lastGenerationOperator ℝ).currentIteration_ = (lastGenerationOperator ℝ).maxIterations_ ∧
      (1 : ℤ) ≤ (lastGenerationOperator ℝ).maxIterations_ ∧
      (0 : ℝ) < (lastGenerationOperator ℝ).perturbation_ ∧
      (doMutation (fun a b : ℝ => a ^ b) (lastGenerationOperator ℝ) 1 (sampleSolution ℝ)
        (sampleDraws ℝ) 0).1 = sampleSolution ℝ :=
  ⟨rfl, by decide, by norm_num [lastGenerationOperator],
    (doMutation_final_generation (lastGenerationOperator ℝ) rfl (by decide)
      (by norm_num [lastGenerationOperator])).2.2 1 (sampleSolution ℝ) (sampleDraws ℝ) 0
      (by intro v hv; simp only [sampleSolution, List.mem_singleton] at hv; subst hv; norm_num)⟩

/-- C13: `doMutation` keeps the number of variables and every lower and upper bound, and
the variable at index `i` whose coin draw is not below the mutation probability is
returned as it was, after consuming that one draw. -/
theorem doMutation_unselected_untouched (pow : ℝ → ℝ → ℝ) (op : NonUniformMutation ℝ)
    (probability : ℝ) (x : Solution ℝ) (r : ℕ → ℝ) (k i : ℕ) (v : Variable ℝ)
    (hi : x[i]? = some v)
    (hcoin : probability ≤ r (drawsBefore pow op probability r x k i)) :
    (doMutation pow op probability x r k).1.length = x.length ∧
      (doMutation pow op probability x r k).1.map (fun w => (w.lowerBound, w.upperBound)) =
        x.map (fun w => (w.lowerBound, w.upperBound)) ∧
      (doMutation pow op probability x r k).1[i]? = some v ∧
      drawsBefore pow op probability r x k (i + 1) =
        drawsBefore pow op probability r x k i + 1 := by
  have hbody : mutateVariable pow op probability r v
      (drawsBefore pow op probability r x k i) =
        (v, drawsBefore pow op probability r x k i + 1) := by
    rw [mutateVariable_eq, if_neg (not_lt.mpr hcoin)]
  refine ⟨?_, ?_, ?_, ?_⟩
  · rw [doMutation_eq_mutateVars, mutateVars_length]
  · rw [doMutation_eq_mutateVars, mutateVars_bounds]
  · rw [doMutation_getElem_opt pow op probability x r k i v hi, hbody]
  · rw [drawsBefore_succ pow op probability x r k i v hi, hbody]

theorem doMutation_unselected_untouched_witness :
    (sampleSolution ℝ)[0]? = some ⟨5, 0, 10⟩ ∧
      (doMutation (fun a b : ℝ => a ^ b) (sampleOperator ℝ) (1 / 8) (sampleSolution ℝ)
        (sampleDraws ℝ) 0).1[0]? = some ⟨5, 0, 10⟩ :=
  ⟨rfl, (doMutation_unselected_untouched (fun a b : ℝ => a ^ b) (sampleOperator ℝ) (1 / 8)
    (sampleSolution ℝ) (sampleDraws ℝ) 0 0 ⟨5, 0, 10⟩ rfl
    (by norm_num [sampleDraws])).2.2.1⟩

/-- For 0 ≤ currentIteration ≤ maxIterations, maxIterations ≥ 1 and a draw in [0,1) the
factor 1 - rand ^ ((1 - currentIteration / maxIterations) ^ b) lies in [0,1], for every b. -/
theorem decayFactor_mem (it maxIt : ℤ) (b u : ℝ) (hmax : 1 ≤ maxIt) (hit : 0 ≤ it ∧ it ≤ maxIt)
    (hu : 0 ≤ u ∧ u < 1) :
    0 ≤ 1 - u ^ ((1 - (it : ℝ) / (maxIt : ℝ)) ^ b) ∧
      1 - u ^ ((1 - (it : ℝ) / (maxIt : ℝ)) ^ b) ≤ 1 := by
  have hm : (0 : ℝ) < (maxIt : ℝ) := by
    have : (0 : ℤ) < maxIt := by omega
    exact_mod_cast this
  have hle : (it : ℝ) ≤ (maxIt : ℝ) := by exact_mod_cast hit.2
  have hbase : 0 ≤ 1 - (it : ℝ) / (maxIt : ℝ) := by
    rw [sub_nonneg, div_le_one hm]
    exact hle
  have hexp : 0 ≤ (1 - (it : ℝ) / (maxIt : ℝ)) ^ b := Real.rpow_nonneg hbase b
  have h1 : u ^ ((1 - (it : ℝ) / (maxIt : ℝ)) ^ b) ≤ 1 := Real.rpow_le_one hu.1 hu.2.le hexp
  have h0 : 0 ≤ u ^ ((1 - (it : ℝ) / (maxIt : ℝ)) ^ b) := Real.rpow_nonneg hu.1 _
  constructor <;> linarith

/-- C15: for b ≥ 0, a draw in [0,1), maxIterations ≥ 1 and 0 ≤ i1 ≤ i2 ≤ maxIterations, the
magnitude of `delta(y, b)` at currentIteration i2 is at most its magnitude at
currentIteration i1, for the same distance and the same draw. -/
theorem delta_annealing (op : NonUniformMutation ℝ) (i1 i2 : ℤ) (y b : ℝ) (r : ℕ → ℝ) (k : ℕ)
    (hb : 0 ≤ b) (hr : 0 ≤ r k ∧ r k < 1) (hmax : 1 ≤ op.maxIterations_)
    (h1 : 0 ≤ i1) (h12 : i1 ≤ i2) (h2 : i2 ≤ op.maxIterations_) :
    |(delta (fun a c : ℝ => a ^ c) { op with currentIteration_ := i2 } y b r k).1| ≤
      |(delta (fun a c : ℝ => a ^ c) { op with currentIteration_ := i1 } y b r k).1| := by
  have hm : (0 : ℝ) < (op.maxIterations_ : ℝ) := by
    have : (0 : ℤ) < op.maxIterations_ := by omega
    exact_mod_cast this
  have hc12 : (i1 : ℝ) ≤ (i2 : ℝ) := by exact_mod_cast h12
  have hc2 : (i2 : ℝ) ≤ (op.maxIterations_ : ℝ) := by exact_mod_cast h2
  have hbase2 : 0 ≤ 1 - (i2 : ℝ) / (op.maxIterations_ : ℝ) := by
    rw [sub_nonneg, div_le_one hm]
    exact hc2
  have hbase12 : 1 - (i2 : ℝ) / (op.maxIterations_ : ℝ) ≤
      1 - (i1 : ℝ) / (op.maxIterations_ : ℝ) := by
    have := div_le_div_of_nonneg_right hc12 hm.le
    linarith
  have hexp2 : 0 ≤ (1 - (i2 : ℝ) / (op.maxIterations_ : ℝ)) ^ b := Real.rpow_nonneg hbase2 b
  have hexp12 : (1 - (i2 : ℝ) / (op.maxIterations_ : ℝ)) ^ b ≤
      (1 - (i1 : ℝ) / (op.maxIterations_ : ℝ)) ^ b := Real.rpow_le_rpow hbase2 hbase12 hb
  have hpow : r k ^ ((1 - (i1 : ℝ) / (op.maxIterations_ : ℝ)) ^ b) ≤
      r k ^ ((1 - (i2 : ℝ) / (op.maxIterations_ : ℝ)) ^ b) := by
    rcases hr.1.eq_or_lt with h0 | hpos
    · rw [← h0]
      by_cases he : (1 - (i1 : ℝ) / (op.maxIterations_ : ℝ)) ^ b = 0
      · have he2 : (1 - (i2 : ℝ) / (op.maxIterations_ : ℝ)) ^ b = 0 :=
          le_antisymm (he ▸ hexp12) hexp2
        rw [he, he2]
      · rw [Real.zero_rpow he]
        exact Real.rpow_nonneg le_rfl _
    · exact Real.rpow_le_rpow_of_exponent_ge hpos hr.2.le hexp12
  have hf1 := decayFactor_mem i1 op.maxIterations_ b (r k) hmax ⟨h1, by omega⟩ hr
  have hf2 := decayFactor_mem i2 op.maxIterations_ b (r k) hmax ⟨by omega, h2⟩ hr
  simp only [delta, PseudoRandom.randDouble]
  rw [abs_mul, abs_mul, abs_of_nonneg hf1.1, abs_of_nonneg hf2.1]
  exact mul_le_mul_of_nonneg_left (by linarith) (abs_nonneg y)

theorem delta_annealing_witness :
    ((0 : ℝ) ≤ 1 / 2) ∧ ((0 : ℝ) ≤ sampleDraws ℝ 0 ∧ sampleDraws ℝ 0 < 1) ∧
      |(delta (fun a c : ℝ => a ^ c) { sampleOperator ℝ with currentIteration_ := 7 } 5
          (1 / 2) (sampleDraws ℝ) 0).1| ≤
        |(delta (fun a c : ℝ => a ^ c) { sampleOperator ℝ with currentIteration_ := 3 } 5
          (1 / 2) (sampleDraws ℝ) 0).1| :=
  ⟨by norm_num, by norm_num [sampleDraws],
    delta_annealing (sampleOperator ℝ) 3 7 5 (1 / 2) (sampleDraws ℝ) 0 (by norm_num)
      (by norm_num [sampleDraws]) (by decide) (by decide) (by decide) (by decide)⟩

/-- At currentIteration 0 with maxIterations ≥ 1 the exponent of `delta` is 1 and its result
is the distance times (1 - rand). -/
theorem delta_firstIteration (op : NonUniformMutation ℝ) (y b : ℝ) (r : ℕ → ℝ) (k : ℕ)
    (hcur : op.currentIteration_ = 0) :
    delta (fun a c : ℝ => a ^ c) op y b r k = (y * (1 - r k), k + 1) := by
  simp only [delta, PseudoRandom.randDouble, hcur, Int.cast_zero, zero_div, sub_zero,
    Real.one_rpow, Real.rpow_one]

/-- The mean of |y (1 - u)| over u uniform on [0,1) is |y| / 2. -/
theorem integral_abs_decay (y : ℝ) : ∫ u in (0 : ℝ)..1, |y * (1 - u)| = |y| / 2 := by
  have h : ∀ u ∈ Set.uIcc (0 : ℝ) 1, |y * (1 - u)| = |y| * (1 - u) := by
    intro u hu
    rw [Set.uIcc_of_le zero_le_one] at hu
    have h1 : (0 : ℝ) ≤ 1 - u := by linarith [hu.2]
    rw [abs_mul, abs_of_nonneg h1]
  rw [intervalIntegral.integral_congr h]
  simp only [intervalIntegral.integral_const_mul]
  rw [intervalIntegral.integral_sub (by simp) (by simp)]
  simp
  ring

/-- C12, as stated, fails: at currentIteration 0 of maxIterations 1, for the distance 1 and
the shape parameter 1/2, the mean of |delta| over a draw uniform on [0,1) is 1/2, not the
full distance 1. -/
theorem delta_expected_magnitude_not_full :
    (∫ u in (0 : ℝ)..1,
        |(delta (fun a c : ℝ => a ^ c) (firstGenerationOperator ℝ (1 / 2)) 1 (1 / 2)
          (fun _ => u) 0).1|) = 1 / 2 ∧
      (∫ u in (0 : ℝ)..1,
        |(delta (fun a c : ℝ => a ^ c) (firstGenerationOperator ℝ (1 / 2)) 1 (1 / 2)
          (fun _ => u) 0).1|) ≠ |(1 : ℝ)| := by
  have h : (∫ u in (0 : ℝ)..1,
      |(delta (fun a c : ℝ => a ^ c) (firstGenerationOperator ℝ (1 / 2)) 1 (1 / 2)
        (fun _ => u) 0).1|) = 1 / 2 := by
    simp only [delta_firstIteration (firstGenerationOperator ℝ (1 / 2)) 1 (1 / 2) _ 0 rfl]
    rw [integral_abs_decay 1]
    norm_num
  refine ⟨h, ?_⟩
  rw [h]
  norm_num

/-- C12, amended: at currentIteration 0 with maxIterations ≥ 1, for every distance y and
shape parameter b, the mean of |delta(y, b)| over a draw uniform on [0,1) is half the
distance, |y| / 2; the magnitude is at most |y| for every draw in [0,1) and equals |y| at
the draw 0. -/
theorem delta_expected_magnitude_first_generation (op : NonUniformMutation ℝ) (y b : ℝ)
    (k : ℕ) (hcur : op.currentIteration_ = 0) (_hmax : 1 ≤ op.maxIterations_) :
    (∫ u in (0 : ℝ)..1, |(delta (fun a c : ℝ => a ^ c) op y b (fun _ => u) k).1|) = |y| / 2 ∧
      (∀ u : ℝ, 0 ≤ u ∧ u < 1 →
        |(delta (fun a c : ℝ => a ^ c) op y b (fun _ => u) k).1| ≤ |y|) ∧
      |(delta (fun a c : ℝ => a ^ c) op y b (fun _ => 0) k).1| = |y| := by
  refine ⟨?_, ?_, ?_⟩
  · simp only [delta_firstIteration op y b _ k hcur]
    exact integral_abs_decay y
  · intro u hu
    rw [delta_firstIteration op y b _ k hcur]
    simp only []
    rw [abs_mul, abs_of_nonneg (by linarith [hu.2] : (0 : ℝ) ≤ 1 - u)]
    exact mul_le_of_le_one_right (abs_nonneg y) (by linarith [hu.1])
  · rw [delta_firstIteration op y b _ k hcur]
    simp

theorem delta_expected_magnitude_first_generation_witness :
    (firstGenerationOperator ℝ (1 / 2)).currentIteration_ = 0 ∧
      (1 : ℤ) ≤ (firstGenerationOperator ℝ (1 / 2)).maxIterations_ ∧
      (∫ u in (0 : ℝ)..1,
        |(delta (fun a c : ℝ => a ^ c) (firstGenerationOperator ℝ (1 / 2)) 4 (1 / 2)
          (fun _ => u) 0).1|) = |(4 : ℝ)| / 2 :=
  ⟨rfl, by decide,
    (delta_expected_magnitude_first_generation (firstGenerationOperator ℝ (1 / 2)) 4 (1 / 2) 0
      rfl (by decide)).1⟩

end NonUniformMutation

namespace F08ShiftedRotatedAckleyGlobalOptBound

variable {α : Type} [LinearOrderedField α]

theorem shift_self (o : List α) : shift o o = List.replicate o.length 0 := by
  induction o with
  | nil => rfl
  | cons a as ih =>
    simp only [shift, List.zipWith_cons_cons, sub_self, List.length_cons,
      List.replicate_succ] at ih ⊢
    rw [ih]

theorem dot_zero (row : List α) : ∀ n : ℕ,
    (List.zipWith (fun a b => a * b) row (List.replicate n 0)).sum = 0 := by
  induction row with
  | nil => intro n; simp
  | cons a as ih =>
    intro n
    cases n with
    | zero => simp
    | succ m => simp [List.replicate_succ, ih m]

theorem rotate_zero (m : List (List α)) (n : ℕ) :
    rotate m (List.replicate n 0) = List.replicate m.length 0 := by
  induction m with
  | nil => rfl
  | cons row rows ih =>
    simp only [rotate, List.map_cons, dot_zero, List.length_cons, List.replicate_succ] at ih ⊢
    rw [ih]

/-- C14: for every dimension D ≥ 1, shift vector of length D, matrix with D rows of length D
and bias, `f` applied to the shift vector returns exactly the bias: the shifted and the
rotated inputs are zero vectors and the Ackley kernel is 0 there; with D = 2, shift [0,0],
the identity matrix and bias 0, `f [0,0]` is 0. -/
theorem f_at_shift_eq_bias (d : ℕ) (bias : ℝ) (o : List ℝ) (m : List (List ℝ))
    (hd : 1 ≤ d) (ho : o.length = d) (hm : m.length = d)
    (_hrows : ∀ row ∈ m, row.length = d) :
    f ⟨Real.exp, Real.sqrt, Real.cos, Real.pi⟩ ⟨d, bias, o, m⟩ o = Except.ok bias ∧
      shift o o = List.replicate d 0 ∧
      rotate m (shift o o) = List.replicate d 0 ∧
      ackley ⟨Real.exp, Real.sqrt, Real.cos, Real.pi⟩ d (List.replicate d 0) = 0 ∧
      f ⟨Real.exp, Real.sqrt, Real.cos, Real.pi⟩ ⟨2, 0, [0, 0], [[1, 0], [0, 1]]⟩ [0, 0] =
        Except.ok 0 := by
  have hk : ∀ n : ℕ, 1 ≤ n →
      ackley ⟨Real.exp, Real.sqrt, Real.cos, Real.pi⟩ n (List.replicate n (0 : ℝ)) = 0 := by
    intro n hn
    have hn0 : (n : ℝ) ≠ 0 := by
      have : 0 < n := hn
      exact_mod_cast this.ne'
    simp only [ackley, List.map_replicate, List.sum_replicate, mul_zero, smul_zero,
      Real.sqrt_zero, Real.exp_zero, Real.cos_zero, nsmul_eq_mul, mul_one]
    rw [one_div, inv_mul_cancel₀ hn0]
    ring
  have hs : shift o o = List.replicate d 0 := by rw [shift_self, ho]
  have hrot : rotate m (shift o o) = List.replicate d 0 := by rw [hs, rotate_zero, hm]
  refine ⟨?_, hs, hrot, hk d hd, ?_⟩
  · simp only [f, ho, if_true, hrot, hk d hd, zero_add]
  · have h2 := hk 2 (by norm_num)
    simp only [f, List.length_cons, List.length_nil, if_true, shift, rotate,
      List.zipWith_cons_cons, List.zipWith_nil_right, List.map_cons, List.map_nil,
      List.sum_cons, List.sum_nil, sub_self, mul_zero, add_zero]
    simp only [List.replicate] at h2
    simp [h2]

theorem f_at_shift_eq_bias_witness :
    (1 ≤ 2) ∧ ([3, 4] : List ℝ).length = 2 ∧
      f ⟨Real.exp, Real.sqrt, Real.cos, Real.pi⟩ ⟨2, 7, [3, 4], [[0, 1], [1, 0]]⟩ [3, 4] =
        Except.ok 7 :=
  ⟨by decide, rfl,
    (f_at_shift_eq_bias 2 7 [3, 4] [[0, 1], [1, 0]] (by decide) rfl rfl
      (by intro row hrow; simp at hrow; rcases hrow with h | h <;> simp [h])).1⟩

end F08ShiftedRotatedAckleyGlobalOptBound

namespace Ieee

variable {α : Type} [LinearOrderedField α] [FloorRing α]

theorem ieee_doMutationLoop_append (rpow : α → α → α) (op : NonUniformMutation (Double α))
    (probability : Double α) (r : ℕ → α) (suf : List (Variable (Double α))) :
    ∀ (pre : List (Variable (Double α))) (k : ℕ),
      doMutationLoop rpow op probability r pre.length (pre ++ suf) k =
        (pre ++ (mutateVars rpow op probability r suf k).1,
          (mutateVars rpow op probability r suf k).2) := by
  induction suf with
  | nil =>
    intro pre k
    rw [doMutationLoop]
    simp [mutateVars]
  | cons v vs ih =>
    intro pre k
    rw [doMutationLoop]
    have hlt : pre.length < (pre ++ v :: vs).length := by simp
    rw [dif_pos hlt]
    have hget : (pre ++ v :: vs)[pre.length] = v := List.getElem_of_append rfl rfl
    have hset : ∀ w : Variable (Double α),
        (pre ++ v :: vs).set pre.length w = (pre ++ [w]) ++ vs := by
      intro w
      simp [List.set_append]
    simp only [hget, hset]
    have hlen : ∀ w : Variable (Double α), pre.length + 1 = (pre ++ [w]).length := by
      intro w
      simp
    rw [hlen (mutateVariable rpow op probability r v k).1, ih]
    simp [mutateVars]

theorem ieee_doMutation_eq_mutateVars (rpow : α → α → α) (op : NonUniformMutation (Double α))
    (probability : Double α) (x : Solution (Double α)) (r : ℕ → α) (k : ℕ) :
    doMutation rpow op probability x r k = mutateVars rpow op probability r x k := by
  have h := ieee_doMutationLoop_append rpow op probability r x [] k
  simpa [doMutation] using h

theorem ieee_mutateVars_length (rpow : α → α → α) (op : NonUniformMutation (Double α))
    (probability : Double α) (r : ℕ → α) (l : List (Variable (Double α))) :
    ∀ k : ℕ, (mutateVars rpow op probability r l k).1.length = l.length := by
  induction l with
  | nil => intro k; rfl
  | cons v vs ih => intro k; simp [mutateVars, ih]

theorem ieee_mutateVars_getElem_opt (rpow : α → α → α) (op : NonUniformMutation (Double α))
    (probability : Double α) (r : ℕ → α) (l : List (Variable (Double α))) :
    ∀ (k i : ℕ), (mutateVars rpow op probability r l k).1[i]? =
      (l[i]?).map (fun v =>
        (mutateVariable rpow op probability r v
          (mutateVars rpow op probability r (l.take i) k).2).1) := by
  induction l with
  | nil => intro k i; simp [mutateVars]
  | cons v vs ih =>
    intro k i
    cases i with
    | zero => simp [mutateVars]
    | succ j => simp [mutateVars, ih]

theorem ieee_mutateVars_take_succ (rpow : α → α → α) (op : NonUniformMutation (Double α))
    (probability : Double α) (r : ℕ → α) (l : List (Variable (Double α))) :
    ∀ (k i : ℕ) (v : Variable (Double α)), l[i]? = some v →
      (mutateVars rpow op probability r (l.take (i + 1)) k).2 =
        (mutateVariable rpow op probability r v
          (mutateVars rpow op probability r (l.take i) k).2).2 := by
  induction l with
  | nil => intro k i v h; simp at h
  | cons u us ih =>
    intro k i v h
    cases i with
    | zero =>
      simp only [List.getElem?_cons_zero, Option.some.injEq] at h
      subst h
      simp [mutateVars]
    | succ j =>
      simp only [List.getElem?_cons_succ] at h
      simp only [List.take_succ_cons, mutateVars]
      exact ih _ j v h

/-- The variable at index `i` after `Ieee.doMutation` is the loop body applied to the variable
at index `i` before the call, at position `Ieee.drawsBefore … i` of the random source. -/
theorem ieee_doMutation_getElem_opt (rpow : α → α → α) (op : NonUniformMutation (Double α))
    (probability : Double α) (x : Solution (Double α)) (r : ℕ → α) (k i : ℕ)
    (v : Variable (Double α)) (hi : x[i]? = some v) :
    (doMutation rpow op probability x r k).1[i]? =
      some (mutateVariable rpow op probability r v
        (drawsBefore rpow op probability r x k i)).1 := by
  rw [ieee_doMutation_eq_mutateVars, ieee_mutateVars_getElem_opt, hi]
  rfl

theorem ieee_drawsBefore_succ (rpow : α → α → α) (op : NonUniformMutation (Double α))
    (probability : Double α) (x : Solution (Double α)) (r : ℕ → α) (k i : ℕ)
    (v : Variable (Double α)) (hi : x[i]? = some v) :
    drawsBefore rpow op probability r x k (i + 1) =
      (mutateVariable rpow op probability r v (drawsBefore rpow op probability r x k i)).2 :=
  ieee_mutateVars_take_succ rpow op probability r x k i v hi

theorem ieee_drawsBefore_zero (rpow : α → α → α) (op : NonUniformMutation (Double α))
    (probability : Double α) (x : Solution (Double α)) (r : ℕ → α) (k : ℕ) :
    drawsBefore rpow op probability r x k 0 = k := by
  simp [drawsBefore, mutateVars]

/-- The solution returned by `Ieee.execute` is that of `Ieee.doMutation` on the refreshed
operator with the stored probability. -/
theorem ieee_execute_snd (rpow : α → α → α) (op : NonUniformMutation (Double α))
    (x : Solution (Double α)) (r : ℕ → α) (k : ℕ) :
    (execute rpow op x r k).2 =
      doMutation rpow (execute rpow op x r k).1 op.mutationProbability_ x r k := by
  unfold execute
  cases hc : op.parameters_.currentIteration <;> rfl

theorem ieee_execute_length (rpow : α → α → α) (op : NonUniformMutation (Double α))
    (x : Solution (Double α)) (r : ℕ → α) (k : ℕ) :
    (execute rpow op x r k).2.1.length = x.length := by
  rw [ieee_execute_snd, ieee_doMutation_eq_mutateVars, ieee_mutateVars_length]

/-- Where the base 1 - currentIteration / maxIterations is not negative, the shape parameter
is positive and the draw is not negative, `Ieee.delta` on finite arguments returns the finite
value of `delta` over the reals. -/
theorem ieee_delta_toDouble (op : NonUniformMutation ℝ) (y b : ℝ) (r : ℕ → ℝ) (k : ℕ)
    (hmax : op.maxIterations_ ≠ 0)
    (hbase : 0 ≤ 1 - (op.currentIteration_ : ℝ) / (op.maxIterations_ : ℝ))
    (hb : 0 < b) (hr : 0 ≤ r k) :
    delta (fun a c : ℝ => a ^ c) op.toDouble (Double.fin y) (Double.fin b) r k =
      (Double.fin (NonUniformMutation.delta (fun a c : ℝ => a ^ c) op y b r k).1, k + 1) := by
  have hm : (op.maxIterations_ : ℝ) ≠ 0 := by exact_mod_cast hmax
  have hinner : pow (fun a c : ℝ => a ^ c)
      (Double.sub (Double.fin 1)
        (Double.div (Double.fin (op.currentIteration_ : ℝ)) (Double.fin (op.maxIterations_ : ℝ))))
      (Double.fin b) =
        Double.fin ((1 - (op.currentIteration_ : ℝ) / (op.maxIterations_ : ℝ)) ^ b) := by
    simp only [Double.div, hm, if_false, Double.sub, Double.neg, Double.add, pow, hb.ne']
    rw [← sub_eq_add_neg]
    by_cases h1 : 1 - (op.currentIteration_ : ℝ) / (op.maxIterations_ : ℝ) = 1
    · simp only [h1, if_true, Real.one_rpow]
    · rw [if_neg h1]
      rcases hbase.eq_or_lt with h0 | hpos
      · rw [if_neg (by rw [← h0]; exact lt_irrefl _), if_pos h0.symm, if_pos hb, ← h0,
          Real.zero_rpow hb.ne']
      · rw [if_pos hpos]
  have hexp : 0 ≤ (1 - (op.currentIteration_ : ℝ) / (op.maxIterations_ : ℝ)) ^ b :=
    Real.rpow_nonneg hbase b
  have houter : ∀ e : ℝ, 0 ≤ e →
      pow (fun a c : ℝ => a ^ c) (Double.fin (r k)) (Double.fin e) = Double.fin (r k ^ e) := by
    intro e he
    simp only [pow]
    by_cases he0 : e = 0
    · simp only [he0, if_true, Real.rpow_zero]
    · rw [if_neg he0]
      by_cases h1 : r k = 1
      · simp only [h1, if_true, Real.one_rpow]
      · rw [if_neg h1]
        rcases hr.eq_or_lt with h0 | hpos
        · have hepos : 0 < e := lt_of_le_of_ne he (Ne.symm he0)
          rw [if_neg (by rw [← h0]; exact lt_irrefl _), if_pos h0.symm, if_pos hepos, ← h0,
            Real.zero_rpow he0]
        · rw [if_pos hpos]
  simp only [delta, NonUniformMutation.delta, PseudoRandom.randDouble,
    NonUniformMutation.toDouble]
  rw [hinner, houter _ hexp]
  simp only [Double.sub, Double.neg, Double.add, Double.mul, ← sub_eq_add_neg]


theorem double_sub_fin {α : Type} [LinearOrderedField α] (a b : α) :
    Double.sub (Double.fin a) (Double.fin b) = Double.fin (a - b) := by
  simp only [Double.sub, Double.neg, Double.add, sub_eq_add_neg]

theorem double_div_two {α : Type} [LinearOrderedField α] (a : α) :
    Double.div (Double.fin a) (Double.fin 2) = Double.fin (a / 2) := by
  simp only [Double.div, if_neg (two_ne_zero : (2 : α) ≠ 0)]

/-- Under the conditions of `ieee_delta_toDouble`, the loop body on doubles applied to a
finite variable returns the finite variable that the loop body over the reals returns, at
the same position. -/
theorem ieee_mutateVariable_toDouble (op : NonUniformMutation ℝ) (probability : ℝ)
    (r : ℕ → ℝ) (v : Variable ℝ) (k : ℕ) (hmax : op.maxIterations_ ≠ 0)
    (hbase : 0 ≤ 1 - (op.currentIteration_ : ℝ) / (op.maxIterations_ : ℝ))
    (hpert : 0 < op.perturbation_) (hr : ∀ n, 0 ≤ r n) :
    mutateVariable (fun a c : ℝ => a ^ c) op.toDouble (Double.fin probability) r v.toDouble k =
      ((NonUniformMutation.mutateVariable (fun a c : ℝ => a ^ c) op probability r v k).1.toDouble,
        (NonUniformMutation.mutateVariable (fun a c : ℝ => a ^ c) op probability r v k).2) := by
  have hd : ∀ y : ℝ, delta (fun a c : ℝ => a ^ c) op.toDouble (Double.fin y)
      op.toDouble.perturbation_ r (k + 1 + 1) =
        (Double.fin (NonUniformMutation.delta (fun a c : ℝ => a ^ c) op y op.perturbation_ r
          (k + 1 + 1)).1, k + 1 + 1 + 1) :=
    fun y => ieee_delta_toDouble op y op.perturbation_ r (k + 1 + 1) hmax hbase hpert (hr _)
  have hp : op.toDouble.perturbation_ = Double.fin op.perturbation_ := rfl
  unfold mutateVariable NonUniformMutation.mutateVariable
  simp only [PseudoRandom.randDouble, Variable.toDouble, double_sub_fin, double_div_two, hd]
  simp only [hp, Double.lt, Double.le, Double.add, Double.mul, double_sub_fin,
    decide_eq_true_eq, Variable.setValue, NonUniformMutation.delta, PseudoRandom.randDouble]
  split_ifs <;> first | rfl | (exfalso; simp_all)


theorem ieee_mutateVars_toDouble (op : NonUniformMutation ℝ) (probability : ℝ)
    (r : ℕ → ℝ) (hmax : op.maxIterations_ ≠ 0)
    (hbase : 0 ≤ 1 - (op.currentIteration_ : ℝ) / (op.maxIterations_ : ℝ))
    (hpert : 0 < op.perturbation_) (hr : ∀ n, 0 ≤ r n) (l : List (Variable ℝ)) :
    ∀ k : ℕ,
      mutateVars (fun a c : ℝ => a ^ c) op.toDouble (Double.fin probability) r
          (l.map Variable.toDouble) k =
        ((NonUniformMutation.mutateVars (fun a c : ℝ => a ^ c) op probability r l k).1.map
            Variable.toDouble,
          (NonUniformMutation.mutateVars (fun a c : ℝ => a ^ c) op probability r l k).2) := by
  induction l with
  | nil => intro k; rfl
  | cons v vs ih =>
    intro k
    simp only [List.map_cons, mutateVars, NonUniformMutation.mutateVars,
      ieee_mutateVariable_toDouble op probability r v k hmax hbase hpert hr, ih]

/-- Where the base 1 - currentIteration / maxIterations is not negative, the perturbation is
positive and the draws are not negative, `Ieee.doMutation` on a finite solution returns the
finite solution that `doMutation` over the reals returns, at the same position. -/
theorem ieee_doMutation_toDouble (op : NonUniformMutation ℝ) (probability : ℝ)
    (x : Solution ℝ) (r : ℕ → ℝ) (k : ℕ) (hmax : op.maxIterations_ ≠ 0)
    (hbase : 0 ≤ 1 - (op.currentIteration_ : ℝ) / (op.maxIterations_ : ℝ))
    (hpert : 0 < op.perturbation_) (hr : ∀ n, 0 ≤ r n) :
    doMutation (fun a c : ℝ => a ^ c) op.toDouble (Double.fin probability)
        (x.map Variable.toDouble) r k =
      ((NonUniformMutation.doMutation (fun a c : ℝ => a ^ c) op probability x r k).1.map
          Variable.toDouble,
        (NonUniformMutation.doMutation (fun a c : ℝ => a ^ c) op probability x r k).2) := by
  rw [ieee_doMutation_eq_mutateVars, NonUniformMutation.doMutation_eq_mutateVars]
  exact ieee_mutateVars_toDouble op probability r hmax hbase hpert hr x k

/-- A real strictly between 0 and 1 is not an integer. -/
theorem isInteger_of_mem_unit (b : ℝ) (hb : 0 < b ∧ b < 1) : isInteger b = false := by
  have hfloor : ⌊b⌋ = 0 := Int.floor_eq_zero_iff.mpr ⟨hb.1.le, hb.2⟩
  simp only [isInteger, hfloor, Int.cast_zero, decide_eq_false_iff_not]
  exact hb.1.ne

/-- A negative base with an exponent strictly between 0 and 1 is a domain error of `pow`. -/
theorem ieee_pow_domain_error (rpow : ℝ → ℝ → ℝ) (a b : ℝ) (ha : a < 0)
    (hb : 0 < b ∧ b < 1) : pow rpow (Double.fin a) (Double.fin b) = Double.nan := by
  simp only [pow, hb.1.ne', if_false, isInteger_of_mem_unit b hb]
  rw [if_neg (by linarith), if_neg (not_lt.mpr ha.le), if_neg ha.ne]
  rfl

/-- With a negative base 1 - currentIteration / maxIterations, a shape parameter strictly
between 0 and 1 and a draw other than 1, `Ieee.delta` returns NaN. -/
theorem ieee_delta_nan (rpow : ℝ → ℝ → ℝ) (op : NonUniformMutation (Double ℝ)) (y : Double ℝ)
    (b : ℝ) (r : ℕ → ℝ) (k : ℕ) (hmax : op.maxIterations_ ≠ 0)
    (hbase : 1 - (op.currentIteration_ : ℝ) / (op.maxIterations_ : ℝ) < 0)
    (hb : 0 < b ∧ b < 1) (hr : r k ≠ 1) :
    delta rpow op y (Double.fin b) r k = (Double.nan, k + 1) := by
  have hm : (op.maxIterations_ : ℝ) ≠ 0 := by exact_mod_cast hmax
  simp only [delta, PseudoRandom.randDouble, Double.div, hm, if_false, double_sub_fin,
    ieee_pow_domain_error rpow _ b hbase hb]
  simp only [pow, hr, if_false, Double.sub, Double.neg, Double.add]
  cases y <;> rfl


/-- C1, as stated, fails: with currentIteration 2 of maxIterations 1, perturbation 1/2,
mutation probability 1 and all draws 1/4, the variable with value 5 and bounds [0,10] is
inside its bounds before `doMutation` and holds NaN after it: the inner `pow` has the base -1
and the exponent 1/2, and NaN passes both bound tests. -/
theorem ieee_doMutation_overrun_stores_nan :
    ((0 : ℝ) < (NonUniformMutation.overrunOperator ℝ).perturbation_ ∧
        (NonUniformMutation.overrunOperator ℝ).perturbation_ < 1) ∧
      (∀ v ∈ NonUniformMutation.sampleSolution ℝ,
        v.lowerBound ≤ v.upperBound ∧ v.lowerBound ≤ v.value ∧ v.value ≤ v.upperBound) ∧
      (∀ n, (0 : ℝ) ≤ NonUniformMutation.sampleDraws ℝ n ∧
        NonUniformMutation.sampleDraws ℝ n < 1) ∧
      doMutation (fun a c : ℝ => a ^ c) (NonUniformMutation.overrunOperator ℝ).toDouble
          (Double.fin 1) ((NonUniformMutation.sampleSolution ℝ).map Variable.toDouble)
          (NonUniformMutation.sampleDraws ℝ) 0 =
        ([⟨Double.nan, Double.fin 0, Double.fin 10⟩], 3) := by
  refine ⟨by norm_num [NonUniformMutation.overrunOperator], ?_, ?_, ?_⟩
  · intro v hv
    simp only [NonUniformMutation.sampleSolution, List.mem_singleton] at hv
    subst hv
    norm_num
  · intro n
    norm_num [NonUniformMutation.sampleDraws]
  · have hd : ∀ y : Double ℝ,
        delta (fun a c : ℝ => a ^ c) (NonUniformMutation.overrunOperator ℝ).toDouble y
          (Double.fin (1 / 2)) (NonUniformMutation.sampleDraws ℝ) 2 = (Double.nan, 3) :=
      fun y => ieee_delta_nan _ _ y (1 / 2) _ 2 (by decide)
        (by norm_num [NonUniformMutation.overrunOperator, NonUniformMutation.toDouble])
        (by norm_num) (by norm_num [NonUniformMutation.sampleDraws])
    have hp : (NonUniformMutation.overrunOperator ℝ).toDouble.perturbation_ =
        Double.fin (1 / 2) := rfl
    rw [ieee_doMutation_eq_mutateVars]
    simp only [NonUniformMutation.sampleSolution, List.map_cons, List.map_nil, mutateVars,
      mutateVariable, PseudoRandom.randDouble, Variable.toDouble, hp, hd, Double.lt, Double.le,
      Double.add, Variable.setValue, NonUniformMutation.sampleDraws]
    norm_num

/-- C1, amended: with the perturbation strictly between 0 and 1, maxIterations ≠ 0 and a
base 1 - currentIteration / maxIterations that is not negative (as for
0 ≤ currentIteration ≤ maxIterations), for every solution whose variables have
lowerBound ≤ upperBound and a value inside their bounds, every mutation probability and
every sequence of draws in [0,1), `doMutation` on doubles returns finite variables, those of
`doMutation` over the reals, each with its value inside its unchanged bounds. -/
theorem ieee_doMutation_within_bounds (op : NonUniformMutation ℝ) (probability : ℝ)
    (x : Solution ℝ) (r : ℕ → ℝ) (k : ℕ)
    (hpert : 0 < op.perturbation_ ∧ op.perturbation_ < 1)
    (hmax : op.maxIterations_ ≠ 0)
    (hbase : 0 ≤ 1 - (op.currentIteration_ : ℝ) / (op.maxIterations_ : ℝ))
    (hx : ∀ v ∈ x,
      v.lowerBound ≤ v.upperBound ∧ v.lowerBound ≤ v.value ∧ v.value ≤ v.upperBound)
    (hr : ∀ n, 0 ≤ r n ∧ r n < 1) :
    (doMutation (fun a c : ℝ => a ^ c) op.toDouble (Double.fin probability)
          (x.map Variable.toDouble) r k).1 =
        (NonUniformMutation.doMutation (fun a c : ℝ => a ^ c) op probability x r k).1.map
          Variable.toDouble ∧
      (∀ w ∈ (NonUniformMutation.doMutation (fun a c : ℝ => a ^ c) op probability x r k).1,
        w.lowerBound ≤ w.value ∧ w.value ≤ w.upperBound) ∧
      (NonUniformMutation.doMutation (fun a c : ℝ => a ^ c) op probability x r k).1.map
          (fun v => (v.lowerBound, v.upperBound)) =
        x.map (fun v => (v.lowerBound, v.upperBound)) := by
  refine ⟨?_, ?_, ?_⟩
  · rw [ieee_doMutation_toDouble op probability x r k hmax hbase hpert.1 (fun n => (hr n).1)]
  · rw [NonUniformMutation.doMutation_eq_mutateVars]
    exact NonUniformMutation.mutateVars_forall _ op probability r
      (fun v => v.lowerBound ≤ v.upperBound ∧ v.lowerBound ≤ v.value ∧ v.value ≤ v.upperBound)
      (fun w => w.lowerBound ≤ w.value ∧ w.value ≤ w.upperBound)
      (fun v j hv => NonUniformMutation.mutateVariable_within _ op probability r v j hpert hr hv)
      x k hx
  · rw [NonUniformMutation.doMutation_eq_mutateVars]
    exact NonUniformMutation.mutateVars_bounds _ op probability r x k

theorem ieee_doMutation_within_bounds_witness :
    ((0 : ℝ) < (NonUniformMutation.sampleOperator ℝ).perturbation_ ∧
        (NonUniformMutation.sampleOperator ℝ).perturbation_ < 1) ∧
      (NonUniformMutation.sampleOperator ℝ).maxIterations_ ≠ 0 ∧
      (doMutation (fun a c : ℝ => a ^ c) (NonUniformMutation.sampleOperator ℝ).toDouble
            (Double.fin 1) ((NonUniformMutation.sampleSolution ℝ).map Variable.toDouble)
            (NonUniformMutation.sampleDraws ℝ) 0).1 =
          (NonUniformMutation.doMutation (fun a c : ℝ => a ^ c)
            (NonUniformMutation.sampleOperator ℝ) 1 (NonUniformMutation.sampleSolution ℝ)
            (NonUniformMutation.sampleDraws ℝ) 0).1.map Variable.toDouble ∧
      (∀ w ∈ (NonUniformMutation.doMutation (fun a c : ℝ => a ^ c)
          (NonUniformMutation.sampleOperator ℝ) 1 (NonUniformMutation.sampleSolution ℝ)
          (NonUniformMutation.sampleDraws ℝ) 0).1,
        w.lowerBound ≤ w.value ∧ w.value ≤ w.upperBound) :=
  have h := ieee_doMutation_within_bounds (NonUniformMutation.sampleOperator ℝ) 1
    (NonUniformMutation.sampleSolution ℝ) (NonUniformMutation.sampleDraws ℝ) 0
    (by norm_num [NonUniformMutation.sampleOperator]) (by decide)
    (by norm_num [NonUniformMutation.sampleOperator])
    (by
      intro v hv
      simp only [NonUniformMutation.sampleSolution, List.mem_singleton] at hv
      subst hv
      norm_num)
    (by intro n; norm_num [NonUniformMutation.sampleDraws])
  ⟨by norm_num [NonUniformMutation.sampleOperator], by decide, h.1, h.2.1⟩

/-- C4, as stated, fails: with maxIterations 0 (currentIteration 1 in the bag, mutation
probability 1, shape parameter 1/2, all draws 1/4) `execute` returns normally and the
variable with value 5 and bounds [0,10] has been overwritten with 10: the quotient 1/0 is
+infinity, the inner `pow` is +infinity and the outer `pow` is 0. -/
theorem ieee_execute_maxIterations_zero_overwrites :
    (NonUniformMutation.zeroIterationsOperator ℝ).maxIterations_ = 0 ∧
      (execute (fun a c : ℝ => a ^ c) (NonUniformMutation.zeroIterationsOperator ℝ).toDouble
          ((NonUniformMutation.sampleSolution ℝ).map Variable.toDouble)
          (NonUniformMutation.sampleDraws ℝ) 0).2 =
        ([⟨Double.fin 10, Double.fin 0, Double.fin 10⟩], 3) := by
  refine ⟨rfl, ?_⟩
  have hodd : isOddInteger ((1 : ℝ) / 2) = false := by
    have hfloor : ⌊(1 : ℝ) / 2⌋ = 0 := Int.floor_eq_zero_iff.mpr ⟨by norm_num, by norm_num⟩
    simp only [isOddInteger, hfloor, Int.cast_zero, decide_eq_false_iff_not]
    norm_num
  have hd : ∀ y : ℝ,
      delta (fun a c : ℝ => a ^ c)
        { (NonUniformMutation.zeroIterationsOperator ℝ).toDouble with currentIteration_ := 1 }
        (Double.fin y) (Double.fin (1 / 2)) (NonUniformMutation.sampleDraws ℝ) 2 =
          (Double.fin y, 3) := by
    intro y
    simp only [delta, PseudoRandom.randDouble, NonUniformMutation.zeroIterationsOperator,
      NonUniformMutation.toDouble, NonUniformMutation.sampleDraws, Int.cast_one, Int.cast_zero,
      Double.div, if_true, zero_lt_one, Double.sub, Double.neg, Double.add, pow, hodd]
    norm_num [Double.add, Double.mul, abs_lt]
  rw [ieee_execute_snd, ieee_doMutation_eq_mutateVars]
  simp only [execute, NonUniformMutation.zeroIterationsOperator, NonUniformMutation.toDouble,
    ParameterBag.toDouble, NonUniformMutation.sampleSolution, List.map_cons, List.map_nil,
    mutateVars, mutateVariable, PseudoRandom.randDouble, Variable.toDouble] at hd ⊢
  simp only [hd, double_sub_fin, Double.lt, Double.le, Double.add, Variable.setValue,
    NonUniformMutation.sampleDraws]
  norm_num

/-- With maxIterations 0 and currentIteration 0 the quotient is NaN, and for a nonzero shape
parameter and a draw other than 1 `Ieee.delta` returns NaN for every distance. -/
theorem ieee_delta_zero_over_zero (rpow : ℝ → ℝ → ℝ) (op : NonUniformMutation (Double ℝ))
    (y : Double ℝ) (b : ℝ) (r : ℕ → ℝ) (k : ℕ) (hmax : op.maxIterations_ = 0)
    (hcur : op.currentIteration_ = 0) (hb : b ≠ 0) (hr : r k ≠ 1) :
    delta rpow op y (Double.fin b) r k = (Double.nan, k + 1) := by
  simp only [delta, PseudoRandom.randDouble, hmax, hcur, Int.cast_zero, Double.div, if_true,
    lt_irrefl, if_false, Double.sub, Double.neg, Double.add, pow, hb, hr]
  cases y <;> rfl

/-- C4, amended: maxIterations = 0 is not guarded. `execute` returns a solution with as many
variables as it was given; when currentIteration is 0 as well and the perturbation is not 0,
the quotient 0/0 is NaN and every variable that the coin selects is overwritten with NaN,
with its bounds kept, after three draws. -/
theorem ieee_execute_maxIterations_zero_unguarded (op : NonUniformMutation ℝ) (x : Solution ℝ)
    (r : ℕ → ℝ) (k i j : ℕ) (v : Variable ℝ)
    (hmax : op.maxIterations_ = 0)
    (hcur : op.parameters_.currentIteration.getD op.currentIteration_ = 0)
    (hpert : op.perturbation_ ≠ 0) (hi : x[i]? = some v)
    (hj : j = drawsBefore (fun a c : ℝ => a ^ c)
      (execute (fun a c : ℝ => a ^ c) op.toDouble (x.map Variable.toDouble) r k).1
      (Double.fin op.mutationProbability_) r (x.map Variable.toDouble) k i)
    (hcoin : r j < op.mutationProbability_) (hr : ∀ n, 0 ≤ r n ∧ r n < 1) :
    (execute (fun a c : ℝ => a ^ c) op.toDouble (x.map Variable.toDouble) r k).2.1.length =
        x.length ∧
      (execute (fun a c : ℝ => a ^ c) op.toDouble (x.map Variable.toDouble) r k).2.1[i]? =
        some ⟨Double.nan, Double.fin v.lowerBound, Double.fin v.upperBound⟩ ∧
      drawsBefore (fun a c : ℝ => a ^ c)
          (execute (fun a c : ℝ => a ^ c) op.toDouble (x.map Variable.toDouble) r k).1
          (Double.fin op.mutationProbability_) r (x.map Variable.toDouble) k (i + 1) = j + 3 := by
  have hop : ∀ o : NonUniformMutation (Double ℝ),
      o = (execute (fun a c : ℝ => a ^ c) op.toDouble (x.map Variable.toDouble) r k).1 →
        o.maxIterations_ = 0 ∧ o.currentIteration_ = 0 ∧
          o.perturbation_ = Double.fin op.perturbation_ := by
    intro o ho
    subst ho
    unfold execute
    cases hc : op.parameters_.currentIteration with
    | none =>
      rw [hc] at hcur
      simp only [NonUniformMutation.toDouble, ParameterBag.toDouble, hc, Option.map_none']
      exact ⟨hmax, hcur, trivial⟩
    | some it =>
      rw [hc] at hcur
      simp only [NonUniformMutation.toDouble, ParameterBag.toDouble, hc]
      exact ⟨hmax, hcur, trivial⟩
  have hi2 : (x.map Variable.toDouble)[i]? = some v.toDouble := by
    rw [List.getElem?_map, hi]
    rfl
  have hbody : ∀ o : NonUniformMutation (Double ℝ),
      o = (execute (fun a c : ℝ => a ^ c) op.toDouble (x.map Variable.toDouble) r k).1 →
        mutateVariable (fun a c : ℝ => a ^ c) o (Double.fin op.mutationProbability_) r
          v.toDouble j =
          (⟨Double.nan, Double.fin v.lowerBound, Double.fin v.upperBound⟩, j + 3) := by
    intro o ho
    obtain ⟨h1, h2, h3⟩ := hop o ho
    have hd : ∀ y : Double ℝ, delta (fun a c : ℝ => a ^ c) o y (Double.fin op.perturbation_) r
        (j + 1 + 1) = (Double.nan, j + 1 + 1 + 1) :=
      fun y => ieee_delta_zero_over_zero _ o y _ r _ h1 h2 hpert (hr _).2.ne
    simp only [mutateVariable, PseudoRandom.randDouble, h3, hd, Double.lt, hcoin, decide_True,
      if_true, Variable.toDouble, Double.add, Variable.setValue]
    split_ifs <;> first | rfl | contradiction
  refine ⟨by rw [ieee_execute_length, List.length_map], ?_, ?_⟩
  · rw [ieee_execute_snd]
    have h := ieee_doMutation_getElem_opt (fun a c : ℝ => a ^ c)
      (execute (fun a c : ℝ => a ^ c) op.toDouble (x.map Variable.toDouble) r k).1
      (Double.fin op.mutationProbability_) (x.map Variable.toDouble) r k i v.toDouble hi2
    rw [← hj, hbody _ rfl] at h
    exact h
  · rw [ieee_drawsBefore_succ _ _ _ _ r k i v.toDouble hi2, ← hj, hbody _ rfl]

theorem ieee_execute_maxIterations_zero_unguarded_witness :
    (NonUniformMutation.zeroOverZeroOperator ℝ).maxIterations_ = 0 ∧
      (NonUniformMutation.sampleSolution ℝ)[0]? = some ⟨5, 0, 10⟩ ∧
      (execute (fun a c : ℝ => a ^ c) (NonUniformMutation.zeroOverZeroOperator ℝ).toDouble
          ((NonUniformMutation.sampleSolution ℝ).map Variable.toDouble)
          (NonUniformMutation.sampleDraws ℝ) 0).2.1[0]? =
        some ⟨Double.nan, Double.fin 0, Double.fin 10⟩ :=
  ⟨rfl, rfl,
    (ieee_execute_maxIterations_zero_unguarded (NonUniformMutation.zeroOverZeroOperator ℝ)
      (NonUniformMutation.sampleSolution ℝ) (NonUniformMutation.sampleDraws ℝ) 0 0 0 ⟨5, 0, 10⟩
      rfl rfl (by norm_num [NonUniformMutation.zeroOverZeroOperator]) rfl
      (ieee_drawsBefore_zero _ _ _ _ _ _).symm
      (by norm_num [NonUniformMutation.sampleDraws, NonUniformMutation.zeroOverZeroOperator])
      (by intro n; norm_num [NonUniformMutation.sampleDraws])).2.1⟩


/-- C17, as stated, fails: with currentIteration 2 of maxIterations 1, outside
[0, maxIterations], the shape parameter 1/2 and the draw 1/4, `delta` of the distance 1
returns NaN, not a finite value: its inner `pow` has the base -1 and the exponent 1/2. -/
theorem ieee_delta_overrun_nan :
    (NonUniformMutation.overrunOperator ℝ).maxIterations_ ≠ 0 ∧
      (NonUniformMutation.overrunOperator ℝ).maxIterations_ <
        (NonUniformMutation.overrunOperator ℝ).currentIteration_ ∧
      ((0 : ℝ) < 1 / 2 ∧ (1 : ℝ) / 2 ≤ 1) ∧
      ((0 : ℝ) ≤ NonUniformMutation.sampleDraws ℝ 0 ∧ NonUniformMutation.sampleDraws ℝ 0 < 1) ∧
      delta (fun a c : ℝ => a ^ c) (NonUniformMutation.overrunOperator ℝ).toDouble
          (Double.fin 1) (Double.fin (1 / 2)) (NonUniformMutation.sampleDraws ℝ) 0 =
        (Double.nan, 1) :=
  ⟨by decide, by decide, by norm_num, by norm_num [NonUniformMutation.sampleDraws],
    ieee_delta_nan _ _ _ (1 / 2) _ 0 (by decide)
      (by norm_num [NonUniformMutation.overrunOperator, NonUniformMutation.toDouble])
      (by norm_num) (by norm_num [NonUniformMutation.sampleDraws])⟩

/-- C17, amended: for maxIterations ≠ 0, a shape parameter b in (0,1] and a draw in [0,1),
`execute` accepts every currentIteration and returns a solution of the same length. When
the base 1 - currentIteration / maxIterations is not negative, as for a negative
currentIteration with a positive maxIterations, `delta(y, b)` is the finite value
y (1 - rand ^ (base ^ b)), of magnitude at most |y|. When the base is negative, as for
currentIteration > maxIterations > 0, and b < 1, `delta(y, b)` is NaN. -/
theorem ieee_delta_out_of_range (op : NonUniformMutation ℝ) (y b : ℝ) (r : ℕ → ℝ) (k : ℕ)
    (hmax : op.maxIterations_ ≠ 0) (hb : 0 < b ∧ b ≤ 1) (hr : 0 ≤ r k ∧ r k < 1) :
    (0 ≤ 1 - (op.currentIteration_ : ℝ) / (op.maxIterations_ : ℝ) →
        delta (fun a c : ℝ => a ^ c) op.toDouble (Double.fin y) (Double.fin b) r k =
            (Double.fin (y * (1 - r k ^
              ((1 - (op.currentIteration_ : ℝ) / (op.maxIterations_ : ℝ)) ^ b))), k + 1) ∧
          |y * (1 - r k ^ ((1 - (op.currentIteration_ : ℝ) / (op.maxIterations_ : ℝ)) ^ b))| ≤
            |y|) ∧
      (1 - (op.currentIteration_ : ℝ) / (op.maxIterations_ : ℝ) < 0 → b < 1 →
        delta (fun a c : ℝ => a ^ c) op.toDouble (Double.fin y) (Double.fin b) r k =
          (Double.nan, k + 1)) ∧
      (op.currentIteration_ < 0 → 0 < op.maxIterations_ →
        0 ≤ 1 - (op.currentIteration_ : ℝ) / (op.maxIterations_ : ℝ)) ∧
      (0 < op.maxIterations_ → op.maxIterations_ < op.currentIteration_ →
        1 - (op.currentIteration_ : ℝ) / (op.maxIterations_ : ℝ) < 0) ∧
      ∀ x : Solution (Double ℝ),
        (execute (fun a c : ℝ => a ^ c) op.toDouble x r k).2.1.length = x.length := by
  refine ⟨?_, ?_, ?_, ?_, ?_⟩
  · intro hbase
    refine ⟨ieee_delta_toDouble op y b r k hmax hbase hb.1 hr.1, ?_⟩
    have he : 0 ≤ (1 - (op.currentIteration_ : ℝ) / (op.maxIterations_ : ℝ)) ^ b :=
      Real.rpow_nonneg hbase b
    have h1 : r k ^ ((1 - (op.currentIteration_ : ℝ) / (op.maxIterations_ : ℝ)) ^ b) ≤ 1 :=
      Real.rpow_le_one hr.1 hr.2.le he
    have h0 : 0 ≤ r k ^ ((1 - (op.currentIteration_ : ℝ) / (op.maxIterations_ : ℝ)) ^ b) :=
      Real.rpow_nonneg hr.1 _
    rw [abs_mul, abs_of_nonneg (by linarith :
      (0 : ℝ) ≤ 1 - r k ^ ((1 - (op.currentIteration_ : ℝ) / (op.maxIterations_ : ℝ)) ^ b))]
    exact mul_le_of_le_one_right (abs_nonneg y) (by linarith)
  · intro hbase hb1
    exact ieee_delta_nan _ op.toDouble (Double.fin y) b r k hmax hbase ⟨hb.1, hb1⟩ hr.2.ne
  · intro hneg hpos
    have hm : (0 : ℝ) < (op.maxIterations_ : ℝ) := by exact_mod_cast hpos
    have hc : (op.currentIteration_ : ℝ) < 0 := by exact_mod_cast hneg
    have := div_neg_of_neg_of_pos hc hm
    linarith
  · intro hpos hgt
    have hm : (0 : ℝ) < (op.maxIterations_ : ℝ) := by exact_mod_cast hpos
    have hc : (op.maxIterations_ : ℝ) < (op.currentIteration_ : ℝ) := by exact_mod_cast hgt
    have hq : 1 < (op.currentIteration_ : ℝ) / (op.maxIterations_ : ℝ) := by
      rw [one_lt_div hm]
      exact hc
    linarith
  · intro x
    exact ieee_execute_length _ _ x r k

theorem ieee_delta_out_of_range_witness :
    (NonUniformMutation.underrunOperator ℝ).maxIterations_ ≠ 0 ∧
      ((0 : ℝ) < 1 / 2 ∧ (1 : ℝ) / 2 ≤ 1) ∧
      ((0 : ℝ) ≤ NonUniformMutation.sampleDraws ℝ 0 ∧ NonUniformMutation.sampleDraws ℝ 0 < 1) ∧
      |(4 : ℝ) * (1 - NonUniformMutation.sampleDraws ℝ 0 ^
          ((1 - ((NonUniformMutation.underrunOperator ℝ).currentIteration_ : ℝ) /
            ((NonUniformMutation.underrunOperator ℝ).maxIterations_ : ℝ)) ^ ((1 : ℝ) / 2)))| ≤
        |(4 : ℝ)| :=
  ⟨by decide, by norm_num, by norm_num [NonUniformMutation.sampleDraws],
    ((ieee_delta_out_of_range (NonUniformMutation.underrunOperator ℝ) 4 (1 / 2)
      (NonUniformMutation.sampleDraws ℝ) 0 (by decide) (by norm_num)
      (by norm_num [NonUniformMutation.sampleDraws])).1
      (by norm_num [NonUniformMutation.underrunOperator])).2⟩

end Ieee

end JMetal
